import Mathlib

/-! hail: UTF-8 strings, the codepoint iterator and the UTF-8 encoder.

A shallow embedding of `src/hail_str.c`, `src/hail_chars.c` and
`src/hail_io.c`.

* A `uint8_t*` is the memory seen through it: the byte stored at each offset
  (`BytePtr`).  Reading offset `i` is `load p i`, always a value below 256;
  nothing is assumed about the offsets at or after a string's `len`.
* `uint32_t` arithmetic is arithmetic on `Nat`: `~x` is `not32 x`, `x << n` is
  `shl32 x n` (reduced modulo `2 ^ 32`), `&` and `|` are `&&&` and `|||`.
  Storing a `uint32_t` into a `uint8_t` cell keeps the value modulo 256
  (`store`).
* `chars->idx` and `str->len` are `Nat`s.  The only arithmetic on them is
  `idx += cp_size`, executed when `idx < len` with `cp_size <= 4`, so the sum is
  at most `len + 3`: it does not wrap for the length of any object in memory.
* `hail_chars_next` returns, next to its value and the iterator it leaves, the
  offsets it read and whether it printed its diagnostic.
* `fprintf(stdout, buf)` in `write_char` takes `buf` as its format and is passed
  no further argument (`fprintf_noargs`).  The array `buf` is not initialised, so
  its content at entry is a parameter.
* The output of `println` is everything written to `stdout` in order: the
  diagnostic of `hail_chars_next`, the output of `write_char`, the newline.
* Loops (`strlen`, the loop of `println`) take fuel and return `none` when it
  runs out.
-/

namespace Hail

/-! ## Memory -/

/-- The memory behind a `uint8_t*`: the content of the cell at each offset. -/
abbrev BytePtr := Nat → Nat

/-- Reading the `uint8_t` at offset `i`: `p[i]`. -/
def load (p : BytePtr) (i : Nat) : Nat := p i % 256

/-- The assignment `p[i] = v` of a `uint32_t` value to a `uint8_t` cell. -/
def store (p : BytePtr) (i v : Nat) : BytePtr :=
  fun j => if j = i then v % 256 else p j

/-- Memory that holds the given bytes from offset 0 on, and zero after them. -/
def cstr (bytes : List Nat) : BytePtr := fun i => bytes.getD i 0

/-! ## `uint32_t` operators -/

/-- Bitwise complement `~x` of a `uint32_t`. -/
def not32 (x : Nat) : Nat := 0xFFFFFFFF ^^^ (x % 2 ^ 32)

/-- Left shift `x << n` of a `uint32_t`. -/
def shl32 (x n : Nat) : Nat := (x <<< n) % 2 ^ 32

/-! ## `hail_str.h`, `hail_str.c` -/

/-- The struct `HailStr`: the wrapped C string, the slice flag, the length. -/
structure HailStr where
  ptr : BytePtr
  slice : Bool
  len : Nat

/-- The loop of `strlen`, at offset `n`: stop at the first zero byte.  Each
iteration uses one unit of `fuel`; `none` when the fuel runs out first. -/
def strlenLoop (s : BytePtr) : Nat → Nat → Option Nat
  | 0, _ => none
  | fuel + 1, n => if load s n = 0 then some n else strlenLoop s fuel (n + 1)

/-- The C library function `strlen`, scanning from offset 0. -/
def strlen (s : BytePtr) (fuel : Nat) : Option Nat := strlenLoop s fuel 0

/-- The function `hail_str_from` of `hail_str.c`. -/
def hail_str_from (src : BytePtr) (fuel : Nat) : Option HailStr :=
  match strlen src fuel with
  | some n => some { ptr := src, slice := false, len := n }
  | none => none

/-- The function `hail_str_free` of `hail_str.c`: the arguments of the calls of
`free` it makes, in order. -/
def hail_str_free (str : HailStr) : List BytePtr :=
  if !str.slice then [str.ptr] else []

/-! ## `hail_chars.h`, `hail_chars.c` -/

def UTF8_ONE_BYTE_MASK : Nat := 0x80
def UTF8_ONE_BYTE_BITS : Nat := 0
def UTF8_TWO_BYTES_MASK : Nat := 0xE0
def UTF8_TWO_BYTES_BITS : Nat := 0xC0
def UTF8_THREE_BYTES_MASK : Nat := 0xF0
def UTF8_THREE_BYTES_BITS : Nat := 0xE0
def UTF8_FOUR_BYTES_MASK : Nat := 0xF8
def UTF8_FOUR_BYTES_BITS : Nat := 0xF0
def UTF8_CONTINUATION_MASK : Nat := 0xC0
def UTF8_CONTINUATION_BITS : Nat := 0x80

/-- The function `utf8_codepoint_size` of `hail_chars.c`, on a `uint8_t`. -/
def utf8_codepoint_size (byte : Nat) : Nat :=
  if byte &&& UTF8_ONE_BYTE_MASK = UTF8_ONE_BYTE_BITS then 1
  else if byte &&& UTF8_TWO_BYTES_MASK = UTF8_TWO_BYTES_BITS then 2
  else if byte &&& UTF8_THREE_BYTES_MASK = UTF8_THREE_BYTES_BITS then 3
  else if byte &&& UTF8_FOUR_BYTES_MASK = UTF8_FOUR_BYTES_BITS then 4
  else 0

/-- The struct `HailChars`: the current index and the string iterated. -/
structure HailChars where
  idx : Nat
  str : HailStr

/-- The function `hail_str_chars` of `hail_chars.c`. -/
def hail_str_chars (str : HailStr) : HailChars :=
  { idx := 0, str := str }

/-- What one call of `hail_chars_next` does: the value returned, the iterator
left behind, the offsets of `str->ptr` read (in program order) and whether the
`invalid byte` diagnostic was printed. -/
structure NextResult where
  value : Nat
  chars : HailChars
  reads : List Nat
  diag : Bool

/-- The `switch (cp_size)` of `hail_chars_next`: the value assigned to `buffer`
with the offsets read for it, or `none` in the `default` case. -/
def decodeAt (ptr : BytePtr) (idx cp_size : Nat) : Option (Nat × List Nat) :=
  match cp_size with
  | 1 =>
    some (load ptr idx &&& not32 UTF8_ONE_BYTE_MASK, [idx])
  | 2 =>
    some (shl32 (load ptr idx &&& not32 UTF8_TWO_BYTES_MASK) 6 |||
          (load ptr (idx + 1) &&& not32 UTF8_CONTINUATION_MASK),
          [idx, idx + 1])
  | 3 =>
    some (shl32 (load ptr idx &&& not32 UTF8_THREE_BYTES_MASK) 12 |||
          shl32 (load ptr (idx + 1) &&& not32 UTF8_CONTINUATION_MASK) 6 |||
          (load ptr (idx + 2) &&& not32 UTF8_CONTINUATION_MASK),
          [idx, idx + 1, idx + 2])
  | 4 =>
    some (shl32 (load ptr idx &&& not32 UTF8_FOUR_BYTES_MASK) 18 |||
          shl32 (load ptr (idx + 1) &&& not32 UTF8_CONTINUATION_MASK) 12 |||
          shl32 (load ptr (idx + 2) &&& not32 UTF8_CONTINUATION_MASK) 6 |||
          (load ptr (idx + 3) &&& not32 UTF8_CONTINUATION_MASK),
          [idx, idx + 1, idx + 2, idx + 3])
  | _ => none

/-- The function `hail_chars_next` of `hail_chars.c`. -/
def hail_chars_next (chars : HailChars) : NextResult :=
  if chars.idx ≥ chars.str.len then
    { value := 0, chars := chars, reads := [], diag := false }
  else
    let cp_size := utf8_codepoint_size (load chars.str.ptr chars.idx)
    match decodeAt chars.str.ptr chars.idx cp_size with
    | some (buffer, rd) =>
      { value := buffer
        chars := { chars with idx := chars.idx + cp_size }
        reads := chars.idx :: rd
        diag := false }
    | none =>
      { value := 0, chars := chars, reads := [chars.idx], diag := true }

/-- The iterator after `k` successive calls of `hail_chars_next`. -/
def nextN : Nat → HailChars → HailChars
  | 0, chars => chars
  | k + 1, chars => (hail_chars_next (nextN k chars)).chars

/-- Whether the bytes of a string from offset `p` up to `len` are complete
sequences laid end to end: each sequence start below `len` holds a lead byte of
size `n >= 1` with `p + n <= len`, and the next start is `p + n`.  One unit of
`fuel` per sequence. -/
def completeFrom (ptr : BytePtr) (len : Nat) : Nat → Nat → Bool
  | 0, p => decide (len ≤ p)
  | fuel + 1, p =>
    if len ≤ p then true
    else
      let n := utf8_codepoint_size (load ptr p)
      decide (1 ≤ n) && decide (p + n ≤ len) && completeFrom ptr len fuel (p + n)

/-- Whether no sequence start the iterator reaches from offset `p` holds a
truncated sequence: at each start below `len`, either the lead byte is invalid
(size 0, where the iterator stays), or its size `n` satisfies `p + n <= len` and
the same holds from the next start `p + n`.  One unit of `fuel` per sequence. -/
def untruncatedFrom (ptr : BytePtr) (len : Nat) : Nat → Nat → Bool
  | 0, p => decide (len ≤ p)
  | fuel + 1, p =>
    if len ≤ p then true
    else
      let n := utf8_codepoint_size (load ptr p)
      if n = 0 then true
      else decide (p + n ≤ len) && untruncatedFrom ptr len fuel (p + n)

/-- The bytes `hail_chars_next` passes to `printf` in its `default` case. -/
def invalid_byte_message : List Nat :=
  "utf8_to_utf32: invalid byte in UTF8 string.\n".toList.map Char.toNat

/-- What one call of `hail_chars_next` writes to `stdout`: the message of the
`default` case when it is taken, nothing otherwise. -/
def next_stdout (r : NextResult) : List Nat :=
  if r.diag then invalid_byte_message else []

/-! ## `hail_io.c` -/

/-- The function `utf32_to_utf8_string` of `hail_io.c`: the content of `string`
after the call. -/
def utf32_to_utf8_string (code : Nat) (string : BytePtr) : BytePtr :=
  if code < 0x80 then
    store (store string 0 code) 1 0
  else if code < 0x800 then
    store (store (store string
      0 (0b11000000 ||| (code >>> 6)))
      1 (0b10000000 ||| (code &&& 0x3f)))
      2 0
  else if code < 0x10000 then
    store (store (store (store string
      0 (0b11100000 ||| (code >>> 12)))
      1 (0b10000000 ||| ((code >>> 6) &&& 0x3f)))
      2 (0b10000000 ||| (code &&& 0x3f)))
      3 0
  else if code < 0x200000 then
    store (store (store (store (store string
      0 (0b11110000 ||| (code >>> 18)))
      1 (0b10000000 ||| ((code >>> 12) &&& 0x3f)))
      2 (0b10000000 ||| ((code >>> 6) &&& 0x3f)))
      3 (0b10000000 ||| (code &&& 0x3f)))
      4 0
  else
    string

/-- The number of bytes `utf32_to_utf8_string` assigns before the terminator in
the branch it takes for a `code` below `0x200000`. -/
def payloadLen (code : Nat) : Nat :=
  if code < 0x80 then 1
  else if code < 0x800 then 2
  else if code < 0x10000 then 3
  else 4

/-- The bytes of the C string held in an array of `size` cells, read from offset
`i`: the bytes before the first zero byte.  `none` when no cell of the array
holds zero, where the read runs past the array. -/
def cstring (buf : BytePtr) : Nat → Nat → Option (List Nat)
  | 0, _ => none
  | size + 1, i =>
    if load buf i = 0 then some []
    else
      match cstring buf size (i + 1) with
      | some rest => some (load buf i :: rest)
      | none => none

/-- What `fprintf(stdout, format)` writes when it is passed no argument after the
format, on the bytes of `format` before its terminator.  A byte other than `%`
(`0x25`) is written as it is; `%%` writes one `%`; a `%` that ends the format is
an incomplete conversion specification, at which the call stops with nothing
more written; any other conversion specification would fetch an argument that
was not passed, and the call has no defined result (`none`). -/
def fprintf_noargs : List Nat → Option (List Nat)
  | [] => some []
  | b :: rest =>
    if b = 0x25 then
      match rest with
      | [] => some []
      | b' :: rest' =>
        if b' = 0x25 then
          match fprintf_noargs rest' with
          | some out => some (0x25 :: out)
          | none => none
        else none
    else
      match fprintf_noargs rest with
      | some out => some (b :: out)
      | none => none

/-- The function `write_char` of `hail_io.c`: the bytes it sends to `stdout`.
`buf` is the content of the local array `uint8_t buf[5]` at entry; after
`utf32_to_utf8_string(c, buf)` the array is the format of `fprintf`. -/
def write_char (c : Nat) (buf : BytePtr) : Option (List Nat) :=
  match cstring (utf32_to_utf8_string c buf) 5 0 with
  | some format => fprintf_noargs format
  | none => none

/-- What a run of `println` did: the bytes sent to `stdout` (by `hail_chars_next`,
`write_char` and `putchar`, in order), the number of calls of `hail_chars_next`
made, and the iterator at the end. -/
structure PrintResult where
  output : List Nat
  calls : Nat
  chars : HailChars

/-- The loop `while (c != 0)` of `println`, entered with the value `c` of the
last call of `hail_chars_next`, the iterator it left, the number of calls made so
far and the bytes written to `stdout` so far, followed by `putchar` of the
newline.
`stale k` is the content of the array of `write_char` when it is entered after
`k` calls of `hail_chars_next`.  One unit of `fuel` per test of the loop
condition. -/
def println_loop (stale : Nat → BytePtr) :
    Nat → Nat → HailChars → Nat → List Nat → Option PrintResult
  | 0, _, _, _, _ => none
  | fuel + 1, c, chars, calls, out =>
    if c ≠ 0 then
      match write_char c (stale calls) with
      | some bytes =>
        println_loop stale fuel (hail_chars_next chars).value (hail_chars_next chars).chars
          (calls + 1) (out ++ bytes ++ next_stdout (hail_chars_next chars))
      | none => none
    else
      some { output := out ++ [0x0A], calls := calls, chars := chars }

/-- The function `println` of `hail_io.c`. -/
def println (str : HailStr) (stale : Nat → BytePtr) (fuel : Nat) : Option PrintResult :=
  println_loop stale fuel (hail_chars_next (hail_str_chars str)).value
    (hail_chars_next (hail_str_chars str)).chars 1
    (next_stdout (hail_chars_next (hail_str_chars str)))

/-- The bytes `utf32_to_utf8_string` leaves before the terminator for `code`,
read back from a buffer that was zero before the call. -/
def encoding (code : Nat) : List Nat :=
  (cstring (utf32_to_utf8_string code (cstr [])) 5 0).getD []

/-- The encodings of a list of codepoints laid end to end. -/
def encodeAll : List Nat → List Nat
  | [] => []
  | c :: cs => encoding c ++ encodeAll cs

/-- The bytes of a string: those at the offsets below `len`. -/
def bytesOf (s : HailStr) : List Nat := (List.range s.len).map (load s.ptr)

/-! ## Concrete strings -/

/-- The bytes `E2 82 AC` (U+20AC) as a string of length 3. -/
def euroStr : HailStr := { ptr := cstr [0xE2, 0x82, 0xAC, 0], slice := false, len := 3 }

/-- The bytes `F0 9F 98 8A` (U+1F60A) as a string of length 4. -/
def smileStr : HailStr := { ptr := cstr [0xF0, 0x9F, 0x98, 0x8A, 0], slice := false, len := 4 }

/-- The ASCII string `Hi`. -/
def hiStr : HailStr := { ptr := cstr [0x48, 0x69, 0], slice := false, len := 2 }

/-- The C string whose only byte before the terminator is the three-byte lead
`E2`: a truncated sequence. -/
def truncatedStr : HailStr := { ptr := cstr [0xE2, 0], slice := false, len := 1 }

/-- The bytes of `H`, U+00E9, U+20AC, U+1F60A laid end to end: ten bytes. -/
def mixedStr : HailStr :=
  { ptr := cstr [0x48, 0xC3, 0xA9, 0xE2, 0x82, 0xAC, 0xF0, 0x9F, 0x98, 0x8A, 0]
    slice := false
    len := 10 }

/-- The string `hail_str_from` makes of the encoding of U+10FFFF written into
zeroed memory. -/
def maxStr : HailStr :=
  { ptr := utf32_to_utf8_string 0x10FFFF (cstr []), slice := false, len := 4 }

/-- The C string `C0 80 41`: the overlong form of U+0000 followed by `A`. -/
def overlongStr : HailStr := { ptr := cstr [0xC0, 0x80, 0x41, 0], slice := false, len := 3 }

/-- A slice of three bytes inside the memory of another string. -/
def sliceStr : HailStr := { ptr := cstr [0x48, 0x69, 0x21, 0], slice := true, len := 3 }

/-- The bytes `C3 A9` (U+00E9) as a string of length 2. -/
def eAcuteStr : HailStr := { ptr := cstr [0xC3, 0xA9, 0], slice := false, len := 2 }

/-- The bytes `C3 29`: the lead byte of `eAcuteStr` followed by a byte with the
same low 6 bits as `A9` but without the continuation marker. -/
def eAcuteBadStr : HailStr := { ptr := cstr [0xC3, 0x29, 0], slice := false, len := 2 }

/-- The ASCII string `100%`. -/
def percentStr : HailStr :=
  { ptr := cstr [0x31, 0x30, 0x30, 0x25, 0], slice := false, len := 4 }

/-- A string of length 2 starting with the continuation byte `80`. -/
def strayStr : HailStr := { ptr := cstr [0x80, 0x41, 0], slice := false, len := 2 }

/-! ## Facts about single bytes, by enumeration of the 256 values -/

theorem load_lt (p : BytePtr) (i : Nat) : load p i < 256 :=
  Nat.mod_lt _ (by decide)

set_option maxRecDepth 100000 in
theorem size_eq_three_of_bits : ∀ b, b < 256 → b &&& 0xF0 = 0xE0 → utf8_codepoint_size b = 3 := by
  decide

set_option maxRecDepth 100000 in
theorem lead3_bits : ∀ b, b < 256 →
    shl32 (b &&& not32 UTF8_THREE_BYTES_MASK) 12 = (b &&& 0x0F) <<< 12 := by
  decide

set_option maxRecDepth 100000 in
theorem cont_bits : ∀ b, b < 256 → b &&& not32 UTF8_CONTINUATION_MASK = b &&& 0x3F := by
  decide

set_option maxRecDepth 100000 in
theorem cont_bits_shl6 : ∀ b, b < 256 →
    shl32 (b &&& not32 UTF8_CONTINUATION_MASK) 6 = (b &&& 0x3F) <<< 6 := by
  decide

/-- Claim C3 (three-byte sequences).  At a position `p` with `p + 3 <= len` whose
byte has the form `1110xxxx`, `hail_chars_next` returns
`((b[p] & 0x0F) << 12) | ((b[p+1] & 0x3F) << 6) | (b[p+2] & 0x3F)` and advances
`idx` by exactly 3, leaving the string untouched. -/
theorem next_three_bytes (s : HailStr) (p : Nat) (hp : p + 3 ≤ s.len)
    (hlead : load s.ptr p &&& 0xF0 = 0xE0) :
    (hail_chars_next ⟨p, s⟩).value
        = (((load s.ptr p &&& 0x0F) <<< 12) ||| ((load s.ptr (p + 1) &&& 0x3F) <<< 6))
            ||| (load s.ptr (p + 2) &&& 0x3F)
      ∧ (hail_chars_next ⟨p, s⟩).chars.idx = p + 3
      ∧ (hail_chars_next ⟨p, s⟩).chars.str = s := by
  have hsz := size_eq_three_of_bits _ (load_lt s.ptr p) hlead
  have hlt : ¬ (p ≥ s.len) := by omega
  refine ⟨?_, ?_, ?_⟩
  · simp only [hail_chars_next, hlt, if_false, hsz, decodeAt]
    rw [lead3_bits _ (load_lt _ _), cont_bits_shl6 _ (load_lt _ _), cont_bits _ (load_lt _ _)]
  · simp only [hail_chars_next, hlt, if_false, hsz, decodeAt]
  · simp only [hail_chars_next, hlt, if_false, hsz, decodeAt]

/-! ## `strlen` finds the first zero byte -/

theorem strlenLoop_first_zero (s : BytePtr) :
    ∀ (k fuel n : Nat), k < fuel → load s (n + k) = 0 →
      (∀ j, j < k → load s (n + j) ≠ 0) → strlenLoop s fuel n = some (n + k) := by
  intro k
  induction k with
  | zero =>
    intro fuel n hf hz _
    obtain ⟨f, rfl⟩ : ∃ f, fuel = f + 1 := ⟨fuel - 1, by omega⟩
    simp only [strlenLoop]
    rw [if_pos (by simpa using hz)]
    simp
  | succ k ih =>
    intro fuel n hf hz hnz
    obtain ⟨f, rfl⟩ : ∃ f, fuel = f + 1 := ⟨fuel - 1, by omega⟩
    simp only [strlenLoop]
    rw [if_neg (by simpa using hnz 0 (by omega))]
    have := ih f (n + 1) (by omega) (by rw [← hz]; congr 1; omega)
      (fun j hj => by
        have h := hnz (j + 1) (by omega)
        rwa [show n + (j + 1) = n + 1 + j by omega] at h)
    rw [this]
    congr 1
    omega

theorem strlen_first_zero (s : BytePtr) (k fuel : Nat) (hf : k < fuel)
    (hz : load s k = 0) (hnz : ∀ j, j < k → load s j ≠ 0) : strlen s fuel = some k := by
  have := strlenLoop_first_zero s k fuel 0 hf (by simpa using hz)
    (fun j hj => by simpa using hnz j hj)
  simpa [strlen] using this

theorem exists_first_zero (s : BytePtr) (k : Nat) (hz : load s k = 0) :
    ∃ n, n ≤ k ∧ load s n = 0 ∧ ∀ j, j < n → load s j ≠ 0 := by
  classical
  have hex : ∃ n, load s n = 0 := ⟨k, hz⟩
  exact ⟨Nat.find hex, Nat.find_min' hex hz, Nat.find_spec hex,
    fun j hj => Nat.find_min hex hj⟩

/-! ## One call of `hail_chars_next` -/

theorem size_cases (b : Nat) :
    utf8_codepoint_size b = 0 ∨ utf8_codepoint_size b = 1 ∨ utf8_codepoint_size b = 2 ∨
      utf8_codepoint_size b = 3 ∨ utf8_codepoint_size b = 4 := by
  unfold utf8_codepoint_size
  split_ifs <;> simp

theorem next_of_exhausted (chars : HailChars) (h : chars.str.len ≤ chars.idx) :
    hail_chars_next chars = { value := 0, chars := chars, reads := [], diag := false } := by
  simp [hail_chars_next, h]

theorem next_of_invalid (chars : HailChars) (h : chars.idx < chars.str.len)
    (hsz : utf8_codepoint_size (load chars.str.ptr chars.idx) = 0) :
    hail_chars_next chars
      = { value := 0, chars := chars, reads := [chars.idx], diag := true } := by
  have hlt : ¬ (chars.idx ≥ chars.str.len) := by omega
  simp only [hail_chars_next, hlt, if_false, hsz, decodeAt]

theorem next_chars_of_valid (chars : HailChars) (h : chars.idx < chars.str.len)
    (hsz : utf8_codepoint_size (load chars.str.ptr chars.idx) ≠ 0) :
    (hail_chars_next chars).chars
      = { idx := chars.idx + utf8_codepoint_size (load chars.str.ptr chars.idx),
          str := chars.str } := by
  have hlt : ¬ (chars.idx ≥ chars.str.len) := by omega
  rcases size_cases (load chars.str.ptr chars.idx) with h0 | h1 | h2 | h3 | h4
  · exact absurd h0 hsz
  · simp only [hail_chars_next, hlt, if_false, h1, decodeAt]
  · simp only [hail_chars_next, hlt, if_false, h2, decodeAt]
  · simp only [hail_chars_next, hlt, if_false, h3, decodeAt]
  · simp only [hail_chars_next, hlt, if_false, h4, decodeAt]

theorem next_str (chars : HailChars) : (hail_chars_next chars).chars.str = chars.str := by
  by_cases h : chars.idx < chars.str.len
  · by_cases hsz : utf8_codepoint_size (load chars.str.ptr chars.idx) = 0
    · rw [next_of_invalid chars h hsz]
    · rw [next_chars_of_valid chars h hsz]
  · rw [next_of_exhausted chars (by omega)]

theorem nextN_str (chars : HailChars) (k : Nat) : (nextN k chars).str = chars.str := by
  induction k with
  | zero => rfl
  | succ k ih => simp only [nextN]; rw [next_str, ih]

set_option maxRecDepth 100000 in
theorem size_eq_four_of_bits : ∀ b, b < 256 → b &&& 0xF8 = 0xF0 → utf8_codepoint_size b = 4 := by
  decide

set_option maxRecDepth 100000 in
theorem lead4_bits : ∀ b, b < 256 →
    shl32 (b &&& not32 UTF8_FOUR_BYTES_MASK) 18 = (b &&& 0x07) <<< 18 := by
  decide

set_option maxRecDepth 100000 in
theorem cont_bits_shl12 : ∀ b, b < 256 →
    shl32 (b &&& not32 UTF8_CONTINUATION_MASK) 12 = (b &&& 0x3F) <<< 12 := by
  decide

set_option maxRecDepth 100000 in
theorem ascii_byte : ∀ b, b < 0x80 →
    utf8_codepoint_size b = 1 ∧ b &&& not32 UTF8_ONE_BYTE_MASK = b := by
  decide

set_option maxRecDepth 100000 in
theorem size_zero_iff : ∀ b, b < 256 →
    (utf8_codepoint_size b = 0 ↔ ((0x80 ≤ b ∧ b ≤ 0xBF) ∨ (0xF8 ≤ b ∧ b ≤ 0xFF))) := by
  decide

/-- Claim C4 (four-byte sequences).  At a position `p` with `p + 4 <= len` whose
byte has the form `11110xxx`, `hail_chars_next` returns
`((b[p] & 0x07) << 18) | ((b[p+1] & 0x3F) << 12) | ((b[p+2] & 0x3F) << 6) |
(b[p+3] & 0x3F)` and advances `idx` by exactly 4, leaving the string untouched. -/
theorem next_four_bytes (s : HailStr) (p : Nat) (hp : p + 4 ≤ s.len)
    (hlead : load s.ptr p &&& 0xF8 = 0xF0) :
    (hail_chars_next ⟨p, s⟩).value
        = ((((load s.ptr p &&& 0x07) <<< 18) ||| ((load s.ptr (p + 1) &&& 0x3F) <<< 12))
            ||| ((load s.ptr (p + 2) &&& 0x3F) <<< 6))
            ||| (load s.ptr (p + 3) &&& 0x3F)
      ∧ (hail_chars_next ⟨p, s⟩).chars.idx = p + 4
      ∧ (hail_chars_next ⟨p, s⟩).chars.str = s := by
  have hsz := size_eq_four_of_bits _ (load_lt s.ptr p) hlead
  have hlt : ¬ (p ≥ s.len) := by omega
  refine ⟨?_, ?_, ?_⟩
  · simp only [hail_chars_next, hlt, if_false, hsz, decodeAt]
    rw [lead4_bits _ (load_lt _ _), cont_bits_shl12 _ (load_lt _ _),
      cont_bits_shl6 _ (load_lt _ _), cont_bits _ (load_lt _ _)]
  · simp only [hail_chars_next, hlt, if_false, hsz, decodeAt]
  · simp only [hail_chars_next, hlt, if_false, hsz, decodeAt]

theorem next_ascii (s : HailStr) (p : Nat) (hp : p < s.len) (hb : load s.ptr p < 0x80) :
    (hail_chars_next ⟨p, s⟩).value = load s.ptr p ∧
      (hail_chars_next ⟨p, s⟩).chars = ⟨p + 1, s⟩ := by
  obtain ⟨hsz, hval⟩ := ascii_byte _ hb
  have hlt : ¬ (p ≥ s.len) := by omega
  constructor
  · simp only [hail_chars_next, hlt, if_false, hsz, decodeAt]
    exact hval
  · simp only [hail_chars_next, hlt, if_false, hsz, decodeAt]

theorem nextN_ascii (s : HailStr) (hascii : ∀ i, i < s.len → load s.ptr i < 0x80) :
    ∀ j, j ≤ s.len → nextN j (hail_str_chars s) = ⟨j, s⟩ := by
  intro j
  induction j with
  | zero => intro _; rfl
  | succ j ih =>
    intro hj
    simp only [nextN]
    rw [ih (by omega)]
    exact (next_ascii s j (by omega) (hascii j (by omega))).2

/-- Claim C2 (ASCII).  If the `len` bytes of a string are all below `0x80`, then
for `1 <= k <= len` the `k`-th call of `hail_chars_next` on the iterator from
`hail_str_chars` returns the value of byte `k - 1` and leaves `idx = k`: one
codepoint per byte, equal to the byte, in order. -/
theorem ascii_kth_call (s : HailStr) (hascii : ∀ i, i < s.len → load s.ptr i < 0x80)
    (k : Nat) (h1 : 1 ≤ k) (hk : k ≤ s.len) :
    (hail_chars_next (nextN (k - 1) (hail_str_chars s))).value = load s.ptr (k - 1)
      ∧ (hail_chars_next (nextN (k - 1) (hail_str_chars s))).chars.idx = k
      ∧ nextN k (hail_str_chars s) = ⟨k, s⟩ := by
  rw [nextN_ascii s hascii (k - 1) (by omega)]
  have h := next_ascii s (k - 1) (by omega) (hascii (k - 1) (by omega))
  refine ⟨h.1, ?_, nextN_ascii s hascii k hk⟩
  rw [h.2]
  show k - 1 + 1 = k
  omega

theorem nextN_of_fixed (chars : HailChars) (h : (hail_chars_next chars).chars = chars) :
    ∀ k, nextN k chars = chars := by
  intro k
  induction k with
  | zero => rfl
  | succ k ih => simp only [nextN]; rw [ih, h]

/-- Claim C5 (exhaustion).  On an iterator with `idx >= str.len`,
`hail_chars_next` returns 0, leaves the iterator unchanged and reads no byte; so
after any number `k` of further calls the iterator is still the same and the next
call again returns 0 without reading. -/
theorem next_exhausted (chars : HailChars) (h : chars.idx ≥ chars.str.len) :
    (hail_chars_next chars).value = 0
      ∧ (hail_chars_next chars).chars = chars
      ∧ (hail_chars_next chars).reads = []
      ∧ ∀ k, nextN k chars = chars
          ∧ (hail_chars_next (nextN k chars)).value = 0
          ∧ (hail_chars_next (nextN k chars)).reads = [] := by
  have hn := next_of_exhausted chars h
  have hfix : (hail_chars_next chars).chars = chars := by rw [hn]
  refine ⟨by rw [hn], hfix, by rw [hn], fun k => ?_⟩
  rw [nextN_of_fixed chars hfix k]
  exact ⟨rfl, by rw [hn], by rw [hn]⟩

/-- Claim C6 (invalid lead byte).  With `idx < len`, the current byte matches none
of the four lead patterns (`utf8_codepoint_size` is 0) exactly when it lies in
`0x80..0xBF` or `0xF8..0xFF`; in that case `hail_chars_next` prints its
diagnostic, returns the sentinel 0 and leaves the iterator unchanged, so every
later call returns 0 as well while `idx < len` still holds: iteration ends early
although bytes remain. -/
theorem next_invalid_lead (chars : HailChars) (h : chars.idx < chars.str.len) :
    (utf8_codepoint_size (load chars.str.ptr chars.idx) = 0 ↔
        ((0x80 ≤ load chars.str.ptr chars.idx ∧ load chars.str.ptr chars.idx ≤ 0xBF) ∨
         (0xF8 ≤ load chars.str.ptr chars.idx ∧ load chars.str.ptr chars.idx ≤ 0xFF)))
      ∧ (utf8_codepoint_size (load chars.str.ptr chars.idx) = 0 →
          (hail_chars_next chars).value = 0
            ∧ (hail_chars_next chars).chars = chars
            ∧ (hail_chars_next chars).diag = true
            ∧ ∀ k, (hail_chars_next (nextN k chars)).value = 0
                ∧ nextN k chars = chars
                ∧ (nextN k chars).idx < chars.str.len) := by
  refine ⟨size_zero_iff _ (load_lt _ _), fun hsz => ?_⟩
  have hn := next_of_invalid chars h hsz
  have hfix : (hail_chars_next chars).chars = chars := by rw [hn]
  refine ⟨by rw [hn], hfix, by rw [hn], fun k => ?_⟩
  rw [nextN_of_fixed chars hfix k]
  exact ⟨by rw [hn], rfl, h⟩

/-! ## The encoder -/

theorem load_store_same (p : BytePtr) (i v : Nat) : load (store p i v) i = v % 256 := by
  simp [load, store]

theorem load_store_other (p : BytePtr) (i j v : Nat) (h : j ≠ i) :
    load (store p i v) j = load p j := by
  simp [load, store, h]

theorem shr_lt (c k m : Nat) (h : c < 2 ^ k * m) : c >>> k < m := by
  rw [Nat.shiftRight_eq_div_pow]
  exact Nat.div_lt_of_lt_mul h

theorem and_3f (c : Nat) : c &&& 0x3f = c % 64 :=
  Nat.and_pow_two_sub_one_eq_mod c 6

set_option maxRecDepth 100000 in
theorem enc_lead2 : ∀ x, x < 32 →
    (0xC0 ||| x) < 256 ∧ (0xC0 ||| x) ≠ 0 ∧ utf8_codepoint_size (0xC0 ||| x) = 2 ∧
      shl32 ((0xC0 ||| x) &&& not32 UTF8_TWO_BYTES_MASK) 6 = 2 ^ 6 * x := by
  decide

set_option maxRecDepth 100000 in
theorem enc_lead3 : ∀ x, x < 16 →
    (0xE0 ||| x) < 256 ∧ (0xE0 ||| x) ≠ 0 ∧ utf8_codepoint_size (0xE0 ||| x) = 3 ∧
      shl32 ((0xE0 ||| x) &&& not32 UTF8_THREE_BYTES_MASK) 12 = 2 ^ 12 * x := by
  decide

set_option maxRecDepth 100000 in
theorem enc_lead4 : ∀ x, x < 8 →
    (0xF0 ||| x) < 256 ∧ (0xF0 ||| x) ≠ 0 ∧ utf8_codepoint_size (0xF0 ||| x) = 4 ∧
      shl32 ((0xF0 ||| x) &&& not32 UTF8_FOUR_BYTES_MASK) 18 = 2 ^ 18 * x := by
  decide

set_option maxRecDepth 100000 in
theorem enc_cont : ∀ y, y < 64 →
    (0x80 ||| y) < 256 ∧ (0x80 ||| y) ≠ 0 ∧
      (0x80 ||| y) &&& not32 UTF8_CONTINUATION_MASK = y ∧
      shl32 ((0x80 ||| y) &&& not32 UTF8_CONTINUATION_MASK) 6 = 2 ^ 6 * y ∧
      shl32 ((0x80 ||| y) &&& not32 UTF8_CONTINUATION_MASK) 12 = 2 ^ 12 * y := by
  decide

theorem or2 (x y : Nat) (hy : y < 64) : 2 ^ 6 * x ||| y = 64 * x + y := by
  rw [← Nat.mul_add_lt_is_or (by simpa using hy) x]

theorem or3 (x y z : Nat) (hy : y < 64) (hz : z < 64) :
    (2 ^ 12 * x ||| 2 ^ 6 * y) ||| z = 4096 * x + 64 * y + z := by
  rw [← Nat.mul_add_lt_is_or (by norm_num; omega) x]
  have h : 2 ^ 12 * x + 2 ^ 6 * y = 2 ^ 6 * (64 * x + y) := by norm_num; omega
  rw [h, or2 _ _ hz]
  omega

theorem or4 (w x y z : Nat) (hx : x < 64) (hy : y < 64) (hz : z < 64) :
    ((2 ^ 18 * w ||| 2 ^ 12 * x) ||| 2 ^ 6 * y) ||| z
      = 262144 * w + 4096 * x + 64 * y + z := by
  rw [← Nat.mul_add_lt_is_or (by norm_num; omega) w]
  have h : 2 ^ 18 * w + 2 ^ 12 * x = 2 ^ 12 * (64 * w + x) := by norm_num; omega
  rw [h, or3 _ _ _ hy hz]
  omega

theorem enc_eq_1 (code : Nat) (string : BytePtr) (h : code < 0x80) :
    utf32_to_utf8_string code string = store (store string 0 code) 1 0 := by
  simp only [utf32_to_utf8_string, h, if_true]

theorem enc_eq_2 (code : Nat) (string : BytePtr) (h1 : 0x80 ≤ code) (h2 : code < 0x800) :
    utf32_to_utf8_string code string
      = store (store (store string
          0 (0xC0 ||| (code >>> 6)))
          1 (0x80 ||| (code &&& 0x3f)))
          2 0 := by
  have n1 : ¬ code < 0x80 := by omega
  simp only [utf32_to_utf8_string, n1, h2, if_true, if_false]

theorem enc_eq_3 (code : Nat) (string : BytePtr) (h1 : 0x800 ≤ code) (h2 : code < 0x10000) :
    utf32_to_utf8_string code string
      = store (store (store (store string
          0 (0xE0 ||| (code >>> 12)))
          1 (0x80 ||| ((code >>> 6) &&& 0x3f)))
          2 (0x80 ||| (code &&& 0x3f)))
          3 0 := by
  have n1 : ¬ code < 0x80 := by omega
  have n2 : ¬ code < 0x800 := by omega
  simp only [utf32_to_utf8_string, n1, n2, h2, if_true, if_false]

theorem enc_eq_4 (code : Nat) (string : BytePtr) (h1 : 0x10000 ≤ code)
    (h2 : code < 0x200000) :
    utf32_to_utf8_string code string
      = store (store (store (store (store string
          0 (0xF0 ||| (code >>> 18)))
          1 (0x80 ||| ((code >>> 12) &&& 0x3f)))
          2 (0x80 ||| ((code >>> 6) &&& 0x3f)))
          3 (0x80 ||| (code &&& 0x3f)))
          4 0 := by
  have n1 : ¬ code < 0x80 := by omega
  have n2 : ¬ code < 0x800 := by omega
  have n3 : ¬ code < 0x10000 := by omega
  simp only [utf32_to_utf8_string, n1, n2, n3, h2, if_true, if_false]

theorem and_3f_lt (c : Nat) : c &&& 0x3f < 64 := by
  rw [and_3f]; omega

theorem enc_spec_1 (code : Nat) (string : BytePtr) (h1 : code < 0x80) :
    load (utf32_to_utf8_string code string) 0 = code
      ∧ load (utf32_to_utf8_string code string) 1 = 0
      ∧ ∀ j, 2 ≤ j → utf32_to_utf8_string code string j = string j := by
  rw [enc_eq_1 code string h1]
  refine ⟨?_, ?_, fun j hj => ?_⟩
  · rw [load_store_other _ _ _ _ (by decide), load_store_same]
    exact Nat.mod_eq_of_lt (by omega)
  · rw [load_store_same]
  · have a : ¬ j = 1 := by omega
    have b : ¬ j = 0 := by omega
    simp only [store, a, b, if_false]

theorem enc_spec_2 (code : Nat) (string : BytePtr) (h1 : 0x80 ≤ code) (h2 : code < 0x800) :
    load (utf32_to_utf8_string code string) 0 = 0xC0 ||| (code >>> 6)
      ∧ load (utf32_to_utf8_string code string) 1 = 0x80 ||| (code &&& 0x3F)
      ∧ load (utf32_to_utf8_string code string) 2 = 0
      ∧ ∀ j, 3 ≤ j → utf32_to_utf8_string code string j = string j := by
  rw [enc_eq_2 code string h1 h2]
  have hx := enc_lead2 _ (shr_lt code 6 32 (by norm_num; omega))
  have hy := enc_cont _ (and_3f_lt code)
  refine ⟨?_, ?_, ?_, fun j hj => ?_⟩
  · rw [load_store_other _ _ _ _ (by decide), load_store_other _ _ _ _ (by decide),
      load_store_same]
    exact Nat.mod_eq_of_lt hx.1
  · rw [load_store_other _ _ _ _ (by decide), load_store_same]
    exact Nat.mod_eq_of_lt hy.1
  · rw [load_store_same]
  · have a : ¬ j = 2 := by omega
    have b : ¬ j = 1 := by omega
    have c : ¬ j = 0 := by omega
    simp only [store, a, b, c, if_false]

theorem enc_spec_3 (code : Nat) (string : BytePtr) (h1 : 0x800 ≤ code)
    (h2 : code < 0x10000) :
    load (utf32_to_utf8_string code string) 0 = 0xE0 ||| (code >>> 12)
      ∧ load (utf32_to_utf8_string code string) 1 = 0x80 ||| ((code >>> 6) &&& 0x3F)
      ∧ load (utf32_to_utf8_string code string) 2 = 0x80 ||| (code &&& 0x3F)
      ∧ load (utf32_to_utf8_string code string) 3 = 0
      ∧ ∀ j, 4 ≤ j → utf32_to_utf8_string code string j = string j := by
  rw [enc_eq_3 code string h1 h2]
  have hx := enc_lead3 _ (shr_lt code 12 16 (by norm_num; omega))
  have hy := enc_cont _ (and_3f_lt (code >>> 6))
  have hz := enc_cont _ (and_3f_lt code)
  refine ⟨?_, ?_, ?_, ?_, fun j hj => ?_⟩
  · rw [load_store_other _ _ _ _ (by decide), load_store_other _ _ _ _ (by decide),
      load_store_other _ _ _ _ (by decide), load_store_same]
    exact Nat.mod_eq_of_lt hx.1
  · rw [load_store_other _ _ _ _ (by decide), load_store_other _ _ _ _ (by decide),
      load_store_same]
    exact Nat.mod_eq_of_lt hy.1
  · rw [load_store_other _ _ _ _ (by decide), load_store_same]
    exact Nat.mod_eq_of_lt hz.1
  · rw [load_store_same]
  · have a : ¬ j = 3 := by omega
    have b : ¬ j = 2 := by omega
    have c : ¬ j = 1 := by omega
    have d : ¬ j = 0 := by omega
    simp only [store, a, b, c, d, if_false]

theorem enc_spec_4 (code : Nat) (string : BytePtr) (h1 : 0x10000 ≤ code)
    (h : code < 0x200000) :
    load (utf32_to_utf8_string code string) 0 = 0xF0 ||| (code >>> 18)
      ∧ load (utf32_to_utf8_string code string) 1 = 0x80 ||| ((code >>> 12) &&& 0x3F)
      ∧ load (utf32_to_utf8_string code string) 2 = 0x80 ||| ((code >>> 6) &&& 0x3F)
      ∧ load (utf32_to_utf8_string code string) 3 = 0x80 ||| (code &&& 0x3F)
      ∧ load (utf32_to_utf8_string code string) 4 = 0
      ∧ ∀ j, 5 ≤ j → utf32_to_utf8_string code string j = string j := by
  rw [enc_eq_4 code string h1 h]
  have hw := enc_lead4 _ (shr_lt code 18 8 (by norm_num; omega))
  have hx := enc_cont _ (and_3f_lt (code >>> 12))
  have hy := enc_cont _ (and_3f_lt (code >>> 6))
  have hz := enc_cont _ (and_3f_lt code)
  refine ⟨?_, ?_, ?_, ?_, ?_, fun j hj => ?_⟩
  · rw [load_store_other _ _ _ _ (by decide), load_store_other _ _ _ _ (by decide),
      load_store_other _ _ _ _ (by decide), load_store_other _ _ _ _ (by decide),
      load_store_same]
    exact Nat.mod_eq_of_lt hw.1
  · rw [load_store_other _ _ _ _ (by decide), load_store_other _ _ _ _ (by decide),
      load_store_other _ _ _ _ (by decide), load_store_same]
    exact Nat.mod_eq_of_lt hx.1
  · rw [load_store_other _ _ _ _ (by decide), load_store_other _ _ _ _ (by decide),
      load_store_same]
    exact Nat.mod_eq_of_lt hy.1
  · rw [load_store_other _ _ _ _ (by decide), load_store_same]
    exact Nat.mod_eq_of_lt hz.1
  · rw [load_store_same]
  · have a : ¬ j = 4 := by omega
    have b : ¬ j = 3 := by omega
    have c : ¬ j = 2 := by omega
    have d : ¬ j = 1 := by omega
    have e : ¬ j = 0 := by omega
    simp only [store, a, b, c, d, e, if_false]

/-- Claim C8 (encoder output).  For `code < 0x200000`, `utf32_to_utf8_string`
leaves `n` payload bytes at offsets `0..n-1`, a 0 terminator at offset `n`, and
every later cell as it was, where `n = 1` below `0x80` (the byte is `code`),
`n = 2` below `0x800`, `n = 3` below `0x10000` and `n = 4` otherwise, with the
bytes built from the shifts and masks of the source.  The byte read back equals
the `uint32_t` value assigned, so nothing is lost in the narrowing to 8 bits. -/
theorem encoder_output (code : Nat) (string : BytePtr) (h : code < 0x200000) :
    (code < 0x80 →
        load (utf32_to_utf8_string code string) 0 = code
        ∧ load (utf32_to_utf8_string code string) 1 = 0
        ∧ ∀ j, 2 ≤ j → utf32_to_utf8_string code string j = string j)
    ∧ (0x80 ≤ code → code < 0x800 →
        load (utf32_to_utf8_string code string) 0 = 0xC0 ||| (code >>> 6)
        ∧ load (utf32_to_utf8_string code string) 1 = 0x80 ||| (code &&& 0x3F)
        ∧ load (utf32_to_utf8_string code string) 2 = 0
        ∧ ∀ j, 3 ≤ j → utf32_to_utf8_string code string j = string j)
    ∧ (0x800 ≤ code → code < 0x10000 →
        load (utf32_to_utf8_string code string) 0 = 0xE0 ||| (code >>> 12)
        ∧ load (utf32_to_utf8_string code string) 1 = 0x80 ||| ((code >>> 6) &&& 0x3F)
        ∧ load (utf32_to_utf8_string code string) 2 = 0x80 ||| (code &&& 0x3F)
        ∧ load (utf32_to_utf8_string code string) 3 = 0
        ∧ ∀ j, 4 ≤ j → utf32_to_utf8_string code string j = string j)
    ∧ (0x10000 ≤ code →
        load (utf32_to_utf8_string code string) 0 = 0xF0 ||| (code >>> 18)
        ∧ load (utf32_to_utf8_string code string) 1 = 0x80 ||| ((code >>> 12) &&& 0x3F)
        ∧ load (utf32_to_utf8_string code string) 2 = 0x80 ||| ((code >>> 6) &&& 0x3F)
        ∧ load (utf32_to_utf8_string code string) 3 = 0x80 ||| (code &&& 0x3F)
        ∧ load (utf32_to_utf8_string code string) 4 = 0
        ∧ ∀ j, 5 ≤ j → utf32_to_utf8_string code string j = string j) :=
  ⟨enc_spec_1 code string, enc_spec_2 code string, enc_spec_3 code string,
    fun h1 => enc_spec_4 code string h1 h⟩

/-- Claim C9 (encoder out of range).  For `code >= 0x200000` and every initial
content of the buffer, `utf32_to_utf8_string` leaves the buffer as it was. -/
theorem encoder_out_of_range (code : Nat) (string : BytePtr) (h : code ≥ 0x200000) :
    utf32_to_utf8_string code string = string := by
  have n1 : ¬ code < 0x80 := by omega
  have n2 : ¬ code < 0x800 := by omega
  have n3 : ¬ code < 0x10000 := by omega
  have n4 : ¬ code < 0x200000 := by omega
  simp only [utf32_to_utf8_string, n1, n2, n3, n4, if_false]

/-- Claim C10 (`hail_str_from`).  If `src` holds a zero byte at some offset `k`,
then with fuel above `k` `hail_str_from src` returns the string with `ptr = src`,
`slice = false` and `len = n`, where `n <= k` is the offset of the first zero
byte: the byte at `n` is 0 and no byte below `n` is 0. -/
theorem hail_str_from_first_zero (src : BytePtr) (k fuel : Nat) (hz : load src k = 0)
    (hf : k < fuel) :
    ∃ n, hail_str_from src fuel = some { ptr := src, slice := false, len := n }
      ∧ n ≤ k ∧ load src n = 0 ∧ ∀ i, i < n → load src i ≠ 0 := by
  obtain ⟨n, hnk, hn0, hmin⟩ := exists_first_zero src k hz
  refine ⟨n, ?_, hnk, hn0, hmin⟩
  simp only [hail_str_from, strlen_first_zero src n fuel (by omega) hn0 hmin]

/-! ## Encoding a codepoint and decoding it again -/

theorem from_then_next_of_loads (out : BytePtr) (n c fuel : Nat) (hn : n < fuel)
    (hz : load out n = 0) (hnz : ∀ j, j < n → load out j ≠ 0)
    (hv : (hail_chars_next ⟨0, ⟨out, false, n⟩⟩).value = c)
    (hi : (hail_chars_next ⟨0, ⟨out, false, n⟩⟩).chars.idx = n) :
    ∃ s, hail_str_from out fuel = some s
      ∧ s.ptr = out ∧ s.slice = false
      ∧ (hail_chars_next (hail_str_chars s)).value = c
      ∧ (hail_chars_next (hail_str_chars s)).chars.idx = s.len
      ∧ s.len = n := by
  refine ⟨⟨out, false, n⟩, ?_, rfl, rfl, hv, hi, rfl⟩
  simp only [hail_str_from, strlen_first_zero out n fuel hn hz hnz]

theorem decode_encoded_1 (c : Nat) (out : BytePtr) (h0 : 0 < c) (h1 : c < 0x80)
    (l0 : load out 0 = c) :
    (hail_chars_next ⟨0, ⟨out, false, 1⟩⟩).value = c
      ∧ (hail_chars_next ⟨0, ⟨out, false, 1⟩⟩).chars.idx = 1 := by
  have h := next_ascii ⟨out, false, 1⟩ 0 (show (0 : Nat) < 1 by decide)
    (show load out 0 < 0x80 by omega)
  exact ⟨h.1.trans l0, by rw [h.2]⟩

theorem decode_encoded_2 (c : Nat) (out : BytePtr) (h1 : c < 0x800)
    (l0 : load out 0 = 0xC0 ||| (c >>> 6)) (l1 : load out 1 = 0x80 ||| (c &&& 0x3F)) :
    (hail_chars_next ⟨0, ⟨out, false, 2⟩⟩).value = c
      ∧ (hail_chars_next ⟨0, ⟨out, false, 2⟩⟩).chars.idx = 2 := by
  have hx := enc_lead2 _ (shr_lt c 6 32 (by norm_num; omega))
  have hy := enc_cont _ (and_3f_lt c)
  have hsz : utf8_codepoint_size (load out 0) = 2 := by rw [l0]; exact hx.2.2.1
  have hlt : ¬ (0 ≥ 2) := by decide
  constructor
  · simp only [hail_chars_next, hlt, if_false, hsz, decodeAt, Nat.zero_add]
    rw [l0, l1, hx.2.2.2, hy.2.2.1, or2 _ _ (and_3f_lt c), and_3f,
      Nat.shiftRight_eq_div_pow]
    omega
  · simp only [hail_chars_next, hlt, if_false, hsz, decodeAt]

theorem decode_encoded_3 (c : Nat) (out : BytePtr) (h1 : c < 0x10000)
    (l0 : load out 0 = 0xE0 ||| (c >>> 12))
    (l1 : load out 1 = 0x80 ||| ((c >>> 6) &&& 0x3F))
    (l2 : load out 2 = 0x80 ||| (c &&& 0x3F)) :
    (hail_chars_next ⟨0, ⟨out, false, 3⟩⟩).value = c
      ∧ (hail_chars_next ⟨0, ⟨out, false, 3⟩⟩).chars.idx = 3 := by
  have hx := enc_lead3 _ (shr_lt c 12 16 (by norm_num; omega))
  have hy := enc_cont _ (and_3f_lt (c >>> 6))
  have hz := enc_cont _ (and_3f_lt c)
  have hsz : utf8_codepoint_size (load out 0) = 3 := by rw [l0]; exact hx.2.2.1
  have hlt : ¬ (0 ≥ 3) := by decide
  constructor
  · simp only [hail_chars_next, hlt, if_false, hsz, decodeAt, Nat.zero_add]
    rw [l0, l1, l2, hx.2.2.2, hy.2.2.2.1, hz.2.2.1,
      or3 _ _ _ (and_3f_lt (c >>> 6)) (and_3f_lt c), and_3f, and_3f,
      Nat.shiftRight_eq_div_pow, Nat.shiftRight_eq_div_pow]
    omega
  · simp only [hail_chars_next, hlt, if_false, hsz, decodeAt]

theorem decode_encoded_4 (c : Nat) (out : BytePtr) (h1 : c < 0x200000)
    (l0 : load out 0 = 0xF0 ||| (c >>> 18))
    (l1 : load out 1 = 0x80 ||| ((c >>> 12) &&& 0x3F))
    (l2 : load out 2 = 0x80 ||| ((c >>> 6) &&& 0x3F))
    (l3 : load out 3 = 0x80 ||| (c &&& 0x3F)) :
    (hail_chars_next ⟨0, ⟨out, false, 4⟩⟩).value = c
      ∧ (hail_chars_next ⟨0, ⟨out, false, 4⟩⟩).chars.idx = 4 := by
  have hw := enc_lead4 _ (shr_lt c 18 8 (by norm_num; omega))
  have hx := enc_cont _ (and_3f_lt (c >>> 12))
  have hy := enc_cont _ (and_3f_lt (c >>> 6))
  have hz := enc_cont _ (and_3f_lt c)
  have hsz : utf8_codepoint_size (load out 0) = 4 := by rw [l0]; exact hw.2.2.1
  have hlt : ¬ (0 ≥ 4) := by decide
  constructor
  · simp only [hail_chars_next, hlt, if_false, hsz, decodeAt, Nat.zero_add]
    rw [l0, l1, l2, l3, hw.2.2.2, hx.2.2.2.2, hy.2.2.2.1, hz.2.2.1,
      or4 _ _ _ _ (and_3f_lt (c >>> 12)) (and_3f_lt (c >>> 6)) (and_3f_lt c),
      and_3f, and_3f, and_3f,
      Nat.shiftRight_eq_div_pow, Nat.shiftRight_eq_div_pow, Nat.shiftRight_eq_div_pow]
    omega
  · simp only [hail_chars_next, hlt, if_false, hsz, decodeAt]

/-- Claim C1 (round trip).  For every codepoint `c` with `0 < c < 0x200000` and
every initial content of the output buffer, `hail_str_from` applied to the buffer
that `utf32_to_utf8_string c` leaves returns a string `s` (with any fuel of at
least 5, the size of the buffer), and the first `hail_chars_next` on
`hail_str_chars s` returns exactly `c` and leaves `idx = s.len`, where `s.len` is
the number of encoded bytes: 1, 2, 3 or 4 by range. -/
theorem round_trip (c : Nat) (string : BytePtr) (fuel : Nat) (h0 : 0 < c)
    (h1 : c < 0x200000) (hf : 5 ≤ fuel) :
    ∃ s, hail_str_from (utf32_to_utf8_string c string) fuel = some s
      ∧ s.ptr = utf32_to_utf8_string c string ∧ s.slice = false
      ∧ (hail_chars_next (hail_str_chars s)).value = c
      ∧ (hail_chars_next (hail_str_chars s)).chars.idx = s.len
      ∧ s.len = (if c < 0x80 then 1 else if c < 0x800 then 2
                  else if c < 0x10000 then 3 else 4) := by
  by_cases a : c < 0x80
  · obtain ⟨l0, l1, _⟩ := enc_spec_1 c string a
    have r := decode_encoded_1 c _ h0 a l0
    rw [if_pos a]
    refine from_then_next_of_loads _ 1 c fuel (by omega) l1 (fun j hj => ?_) r.1 r.2
    obtain rfl : j = 0 := by omega
    rw [l0]; omega
  by_cases b : c < 0x800
  · obtain ⟨l0, l1, l2, _⟩ := enc_spec_2 c string (by omega) b
    have r := decode_encoded_2 c _ b l0 l1
    have hx := enc_lead2 _ (shr_lt c 6 32 (by norm_num; omega))
    have hy := enc_cont _ (and_3f_lt c)
    rw [if_neg a, if_pos b]
    refine from_then_next_of_loads _ 2 c fuel (by omega) l2 (fun j hj => ?_) r.1 r.2
    have hj' : j = 0 ∨ j = 1 := by omega
    rcases hj' with rfl | rfl
    · rw [l0]; exact hx.2.1
    · rw [l1]; exact hy.2.1
  by_cases d : c < 0x10000
  · obtain ⟨l0, l1, l2, l3, _⟩ := enc_spec_3 c string (by omega) d
    have r := decode_encoded_3 c _ d l0 l1 l2
    have hx := enc_lead3 _ (shr_lt c 12 16 (by norm_num; omega))
    have hy := enc_cont _ (and_3f_lt (c >>> 6))
    have hz := enc_cont _ (and_3f_lt c)
    rw [if_neg a, if_neg b, if_pos d]
    refine from_then_next_of_loads _ 3 c fuel (by omega) l3 (fun j hj => ?_) r.1 r.2
    have hj' : j = 0 ∨ j = 1 ∨ j = 2 := by omega
    rcases hj' with rfl | rfl | rfl
    · rw [l0]; exact hx.2.1
    · rw [l1]; exact hy.2.1
    · rw [l2]; exact hz.2.1
  · obtain ⟨l0, l1, l2, l3, l4, _⟩ := enc_spec_4 c string (by omega) h1
    have r := decode_encoded_4 c _ h1 l0 l1 l2 l3
    have hw := enc_lead4 _ (shr_lt c 18 8 (by norm_num; omega))
    have hx := enc_cont _ (and_3f_lt (c >>> 12))
    have hy := enc_cont _ (and_3f_lt (c >>> 6))
    have hz := enc_cont _ (and_3f_lt c)
    rw [if_neg a, if_neg b, if_neg d]
    refine from_then_next_of_loads _ 4 c fuel (by omega) l4 (fun j hj => ?_) r.1 r.2
    have hj' : j = 0 ∨ j = 1 ∨ j = 2 ∨ j = 3 := by omega
    rcases hj' with rfl | rfl | rfl | rfl
    · rw [l0]; exact hw.2.1
    · rw [l1]; exact hx.2.1
    · rw [l2]; exact hy.2.1
    · rw [l3]; exact hz.2.1

/-! ## The position of the iterator -/

theorem size_le_four (b : Nat) : utf8_codepoint_size b ≤ 4 := by
  rcases size_cases b with h | h | h | h | h <;> omega

theorem next_idx_le (chars : HailChars) (h : chars.idx ≤ chars.str.len + 3) :
    (hail_chars_next chars).chars.idx ≤ chars.str.len + 3 := by
  by_cases hlt : chars.idx < chars.str.len
  · by_cases hsz : utf8_codepoint_size (load chars.str.ptr chars.idx) = 0
    · rw [next_of_invalid chars hlt hsz]; exact h
    · rw [next_chars_of_valid chars hlt hsz]
      have := size_le_four (load chars.str.ptr chars.idx)
      show chars.idx + _ ≤ _
      omega
  · rw [next_of_exhausted chars (by omega)]; exact h

theorem nextN_idx_le (s : HailStr) (k : Nat) :
    (nextN k (hail_str_chars s)).idx ≤ s.len + 3 := by
  induction k with
  | zero => show 0 ≤ _; omega
  | succ k ih =>
    simp only [nextN]
    have hs := nextN_str (hail_str_chars s) k
    have := next_idx_le (nextN k (hail_str_chars s)) (by rw [hs]; exact ih)
    rw [hs] at this
    exact this

theorem complete_step (ptr : BytePtr) (len fuel p : Nat)
    (hc : completeFrom ptr len fuel p = true) (hfuel : len ≤ p + fuel) (hp : p < len) :
    utf8_codepoint_size (load ptr p) ≠ 0
      ∧ p + utf8_codepoint_size (load ptr p) ≤ len
      ∧ ∃ fuel', completeFrom ptr len fuel' (p + utf8_codepoint_size (load ptr p)) = true
          ∧ len ≤ p + utf8_codepoint_size (load ptr p) + fuel' := by
  obtain ⟨f, rfl⟩ : ∃ f, fuel = f + 1 := ⟨fuel - 1, by omega⟩
  have hnp : ¬ len ≤ p := by omega
  simp only [completeFrom, hnp, if_false, Bool.and_eq_true, decide_eq_true_eq] at hc
  obtain ⟨⟨h1, h2⟩, h3⟩ := hc
  exact ⟨by omega, h2, f, h3, by omega⟩

theorem nextN_complete (s : HailStr) (hc : completeFrom s.ptr s.len s.len 0 = true) :
    ∀ k, ∃ p fuel, nextN k (hail_str_chars s) = ⟨p, s⟩ ∧ p ≤ s.len
      ∧ completeFrom s.ptr s.len fuel p = true ∧ s.len ≤ p + fuel := by
  intro k
  induction k with
  | zero => exact ⟨0, s.len, rfl, by omega, hc, by omega⟩
  | succ k ih =>
    obtain ⟨p, fuel, hk, hp, hcp, hf⟩ := ih
    simp only [nextN]
    rw [hk]
    by_cases hlt : p < s.len
    · obtain ⟨hsz, hle, fuel', hc', hf'⟩ := complete_step s.ptr s.len fuel p hcp hf hlt
      exact ⟨p + utf8_codepoint_size (load s.ptr p), fuel',
        next_chars_of_valid ⟨p, s⟩ hlt hsz, hle, hc', hf'⟩
    · exact ⟨p, fuel, by rw [next_of_exhausted ⟨p, s⟩ (by show s.len ≤ p; omega)],
        hp, hcp, hf⟩

theorem nextN_succ_front (k : Nat) (chars : HailChars) :
    nextN (k + 1) chars = nextN k (hail_chars_next chars).chars := by
  induction k with
  | zero => rfl
  | succ k ih =>
    show (hail_chars_next (nextN (k + 1) chars)).chars = _
    rw [ih]
    rfl

theorem untruncated_step (ptr : BytePtr) (len fuel p : Nat)
    (hc : untruncatedFrom ptr len fuel p = true) (hfuel : len ≤ p + fuel) (hp : p < len)
    (hsz : utf8_codepoint_size (load ptr p) ≠ 0) :
    p + utf8_codepoint_size (load ptr p) ≤ len
      ∧ ∃ fuel', untruncatedFrom ptr len fuel' (p + utf8_codepoint_size (load ptr p)) = true
          ∧ len ≤ p + utf8_codepoint_size (load ptr p) + fuel' := by
  obtain ⟨f, rfl⟩ : ∃ f, fuel = f + 1 := ⟨fuel - 1, by omega⟩
  have hnp : ¬ len ≤ p := by omega
  simp only [untruncatedFrom, hnp, hsz, if_false, Bool.and_eq_true, decide_eq_true_eq] at hc
  exact ⟨hc.1, f, hc.2, by omega⟩

/-- Without a truncated sequence on its way, the iterator stays at or below
`len`. -/
theorem nextN_untruncated (s : HailStr) (hc : untruncatedFrom s.ptr s.len s.len 0 = true) :
    ∀ k, ∃ p fuel, nextN k (hail_str_chars s) = ⟨p, s⟩ ∧ p ≤ s.len
      ∧ untruncatedFrom s.ptr s.len fuel p = true ∧ s.len ≤ p + fuel := by
  intro k
  induction k with
  | zero => exact ⟨0, s.len, rfl, by omega, hc, by omega⟩
  | succ k ih =>
    obtain ⟨p, fuel, hk, hp, hcp, hf⟩ := ih
    simp only [nextN]
    rw [hk]
    by_cases hlt : p < s.len
    · by_cases hsz : utf8_codepoint_size (load s.ptr p) = 0
      · exact ⟨p, fuel, by rw [next_of_invalid ⟨p, s⟩ hlt hsz], hp, hcp, hf⟩
      · obtain ⟨hle, fuel', hc', hf'⟩ := untruncated_step s.ptr s.len fuel p hcp hf hlt hsz
        exact ⟨p + utf8_codepoint_size (load s.ptr p), fuel',
          next_chars_of_valid ⟨p, s⟩ hlt hsz, hle, hc', hf'⟩
    · exact ⟨p, fuel, by rw [next_of_exhausted ⟨p, s⟩ (by show s.len ≤ p; omega)],
        hp, hcp, hf⟩

/-- If the iterator started at `p` never passes `len`, no sequence start it
reaches holds a truncated sequence. -/
theorem untruncated_of_bounded (s : HailStr) :
    ∀ (fuel p : Nat), s.len ≤ p + fuel →
      (∀ k, (nextN k ⟨p, s⟩).idx ≤ s.len) → untruncatedFrom s.ptr s.len fuel p = true := by
  intro fuel
  induction fuel with
  | zero =>
    intro p hf _
    simp only [untruncatedFrom, decide_eq_true_eq]
    omega
  | succ f ih =>
    intro p hf hb
    by_cases hlt : p < s.len
    · have hnp : ¬ s.len ≤ p := by omega
      by_cases hsz : utf8_codepoint_size (load s.ptr p) = 0
      · simp only [untruncatedFrom, hnp, hsz, if_false, if_true]
      · have hstep := next_chars_of_valid ⟨p, s⟩ hlt hsz
        have h1 : p + utf8_codepoint_size (load s.ptr p) ≤ s.len := by
          have := hb 1
          simp only [nextN] at this
          rw [hstep] at this
          exact this
        have hrest := ih (p + utf8_codepoint_size (load s.ptr p)) (by omega)
          (fun k => by
            have := hb (k + 1)
            rw [nextN_succ_front, hstep] at this
            exact this)
        simp only [untruncatedFrom, hnp, hsz, if_false, Bool.and_eq_true, decide_eq_true_eq]
        exact ⟨h1, hrest⟩
    · have hnp : s.len ≤ p := by omega
      simp only [untruncatedFrom, hnp, if_true]

/-- Claim C7 fails as stated.  The C string `E2 00` gives a `HailStr` of length 1
holding a three-byte lead; the first `hail_chars_next` advances `idx` to 3, which
is not `<= len = 1`. -/
theorem idx_invariant_counterexample :
    hail_str_from (cstr [0xE2, 0]) 2 = some truncatedStr
      ∧ (nextN 1 (hail_str_chars truncatedStr)).idx = 3
      ∧ truncatedStr.len = 1
      ∧ ¬ ((nextN 1 (hail_str_chars truncatedStr)).idx ≤ truncatedStr.len) := by
  refine ⟨rfl, by decide, rfl, by decide⟩

/-- Claim C7, amended.  After any number of `hail_chars_next` calls on an iterator
from `hail_str_chars s` the position satisfies `idx <= s.len + 3`; and
`idx <= s.len` holds after every number of calls if and only if no sequence start
the iterator reaches below `len` holds a truncated sequence, a valid lead byte of
size `n >= 1` with `start + n > len`.  So the bound of the claim holds on strings
of complete sequences and on strings where the iterator stops at an invalid lead
byte, and fails exactly where a lead byte announces bytes past `len`. -/
theorem idx_invariant_amended (s : HailStr) :
    (∀ k, (nextN k (hail_str_chars s)).idx ≤ s.len + 3)
      ∧ ((∀ k, (nextN k (hail_str_chars s)).idx ≤ s.len)
          ↔ untruncatedFrom s.ptr s.len s.len 0 = true) := by
  refine ⟨nextN_idx_le s, ⟨fun hb => ?_, fun hc k => ?_⟩⟩
  · exact untruncated_of_bounded s s.len 0 (by omega) hb
  · obtain ⟨p, fuel, hk, hp, _, _⟩ := nextN_untruncated s hc k
    rw [hk]
    exact hp

/-! ## The theorems at concrete inputs -/

theorem round_trip_witness :
    hail_str_from (utf32_to_utf8_string 0x10FFFF (cstr [])) 5 = some maxStr
      ∧ (hail_chars_next (hail_str_chars maxStr)).value = 0x10FFFF
      ∧ (hail_chars_next (hail_str_chars maxStr)).chars.idx = 4 := by
  obtain ⟨s, hs, _, _, hv, hi, hl⟩ :=
    round_trip 0x10FFFF (cstr []) 5 (by decide) (by decide) (by decide)
  have hs' : hail_str_from (utf32_to_utf8_string 0x10FFFF (cstr [])) 5 = some maxStr := rfl
  obtain rfl : s = maxStr := Option.some.inj (hs.symm.trans hs')
  exact ⟨hs', hv, hi.trans hl⟩

theorem ascii_kth_call_witness :
    (hail_chars_next (nextN 1 (hail_str_chars hiStr))).value = 0x69
      ∧ (hail_chars_next (nextN 1 (hail_str_chars hiStr))).chars.idx = 2 :=
  have h := ascii_kth_call hiStr (by decide) 2 (by decide) (by decide)
  ⟨h.1.trans (by decide), h.2.1⟩

theorem next_three_bytes_witness :
    (hail_chars_next ⟨0, euroStr⟩).value = 0x20AC
      ∧ (hail_chars_next ⟨0, euroStr⟩).chars.idx = 3 :=
  have h := next_three_bytes euroStr 0 (by decide) (by decide)
  ⟨h.1.trans (by decide), h.2.1⟩

theorem next_four_bytes_witness :
    (hail_chars_next ⟨0, smileStr⟩).value = 0x1F60A
      ∧ (hail_chars_next ⟨0, smileStr⟩).chars.idx = 4 :=
  have h := next_four_bytes smileStr 0 (by decide) (by decide)
  ⟨h.1.trans (by decide), h.2.1⟩

theorem next_exhausted_witness :
    (hail_chars_next ⟨3, euroStr⟩).value = 0
      ∧ (hail_chars_next ⟨3, euroStr⟩).reads = []
      ∧ (nextN 2 ⟨3, euroStr⟩).idx = 3
      ∧ (hail_chars_next (nextN 2 ⟨3, euroStr⟩)).value = 0 :=
  have h := next_exhausted ⟨3, euroStr⟩ (by decide)
  ⟨h.1, h.2.2.1, by rw [(h.2.2.2 2).1], (h.2.2.2 2).2.1⟩

theorem next_invalid_lead_witness :
    (hail_chars_next ⟨0, strayStr⟩).value = 0
      ∧ (hail_chars_next ⟨0, strayStr⟩).chars.idx = 0
      ∧ (hail_chars_next (nextN 3 ⟨0, strayStr⟩)).value = 0 :=
  have h := (next_invalid_lead ⟨0, strayStr⟩ (by decide)).2 (by decide)
  ⟨h.1, by rw [h.2.1], (h.2.2.2 3).1⟩

theorem idx_invariant_amended_witness :
    untruncatedFrom strayStr.ptr strayStr.len strayStr.len 0 = true
      ∧ (nextN 3 (hail_str_chars strayStr)).idx ≤ strayStr.len
      ∧ untruncatedFrom mixedStr.ptr mixedStr.len mixedStr.len 0 = true
      ∧ (nextN 3 (hail_str_chars mixedStr)).idx ≤ mixedStr.len
      ∧ untruncatedFrom truncatedStr.ptr truncatedStr.len truncatedStr.len 0 = false :=
  ⟨by decide, (idx_invariant_amended strayStr).2.mpr (by decide) 3,
    by decide, (idx_invariant_amended mixedStr).2.mpr (by decide) 3,
    by decide⟩

theorem encoder_output_witness :
    (load (utf32_to_utf8_string 0x41 (cstr [])) 0 = 0x41
      ∧ load (utf32_to_utf8_string 0x41 (cstr [])) 1 = 0)
    ∧ (load (utf32_to_utf8_string 0xE9 (cstr [])) 0 = 0xC3
      ∧ load (utf32_to_utf8_string 0xE9 (cstr [])) 1 = 0xA9
      ∧ load (utf32_to_utf8_string 0xE9 (cstr [])) 2 = 0)
    ∧ (load (utf32_to_utf8_string 0x20AC (cstr [])) 0 = 0xE2
      ∧ load (utf32_to_utf8_string 0x20AC (cstr [])) 1 = 0x82
      ∧ load (utf32_to_utf8_string 0x20AC (cstr [])) 2 = 0xAC
      ∧ load (utf32_to_utf8_string 0x20AC (cstr [])) 3 = 0)
    ∧ (load (utf32_to_utf8_string 0x1F60A (cstr [])) 0 = 0xF0
      ∧ load (utf32_to_utf8_string 0x1F60A (cstr [])) 1 = 0x9F
      ∧ load (utf32_to_utf8_string 0x1F60A (cstr [])) 2 = 0x98
      ∧ load (utf32_to_utf8_string 0x1F60A (cstr [])) 3 = 0x8A
      ∧ load (utf32_to_utf8_string 0x1F60A (cstr [])) 4 = 0) :=
  have h1 := (encoder_output 0x41 (cstr []) (by decide)).1 (by decide)
  have h2 := (encoder_output 0xE9 (cstr []) (by decide)).2.1 (by decide) (by decide)
  have h3 := (encoder_output 0x20AC (cstr []) (by decide)).2.2.1 (by decide) (by decide)
  have h4 := (encoder_output 0x1F60A (cstr []) (by decide)).2.2.2 (by decide)
  ⟨⟨h1.1, h1.2.1⟩,
   ⟨h2.1.trans (by decide), h2.2.1.trans (by decide), h2.2.2.1⟩,
   ⟨h3.1.trans (by decide), h3.2.1.trans (by decide), h3.2.2.1.trans (by decide),
     h3.2.2.2.1⟩,
   ⟨h4.1.trans (by decide), h4.2.1.trans (by decide), h4.2.2.1.trans (by decide),
     h4.2.2.2.1.trans (by decide), h4.2.2.2.2.1⟩⟩

theorem encoder_out_of_range_witness :
    utf32_to_utf8_string 0x200000 (cstr [1, 2, 3, 4, 5]) = cstr [1, 2, 3, 4, 5] :=
  encoder_out_of_range 0x200000 (cstr [1, 2, 3, 4, 5]) (by decide)

theorem hail_str_from_first_zero_witness :
    load (cstr [0x48, 0x69, 0, 0x41, 0]) 4 = 0
      ∧ hail_str_from (cstr [0x48, 0x69, 0, 0x41, 0]) 5
          = some { ptr := cstr [0x48, 0x69, 0, 0x41, 0], slice := false, len := 2 } := by
  obtain ⟨n, h, _, hz, hmin⟩ :=
    hail_str_from_first_zero (cstr [0x48, 0x69, 0, 0x41, 0]) 4 5 (by decide) (by decide)
  have hn : n = 2 := by
    rcases Nat.lt_trichotomy n 2 with hlt | heq | hgt
    · exfalso
      have h01 : n = 0 ∨ n = 1 := by omega
      rcases h01 with rfl | rfl
      · exact absurd hz (by decide)
      · exact absurd hz (by decide)
    · exact heq
    · exact absurd (show load (cstr [0x48, 0x69, 0, 0x41, 0]) 2 = 0 by decide) (hmin 2 hgt)
  subst hn
  exact ⟨by decide, h⟩

/-! ## Releasing a string -/

/-- Claim C12 (release).  `hail_str_free` calls `free` not at all when the slice
flag is true, and exactly once, on `ptr`, when the slice flag is false; the
latter is the case of every string returned by `hail_str_from`, whose `ptr` is
the source. -/
theorem hail_str_free_spec (str : HailStr) :
    (str.slice = true → hail_str_free str = [])
      ∧ (str.slice = false → hail_str_free str = [str.ptr])
      ∧ (∀ src fuel, hail_str_from src fuel = some str →
          hail_str_free str = [src] ∧ (hail_str_free str).length = 1) := by
  refine ⟨fun h => ?_, fun h => ?_, fun src fuel h => ?_⟩
  · simp [hail_str_free, h]
  · simp [hail_str_free, h]
  · unfold hail_str_from at h
    cases hs : strlen src fuel with
    | none => rw [hs] at h; exact absurd h (by simp)
    | some n =>
      rw [hs] at h
      have h' := Option.some.inj h
      subst h'
      exact ⟨rfl, rfl⟩

/-! ## The value of one call, by size -/

theorem next_value_1 (chars : HailChars) (h : chars.idx < chars.str.len)
    (hsz : utf8_codepoint_size (load chars.str.ptr chars.idx) = 1) :
    (hail_chars_next chars).value
      = load chars.str.ptr chars.idx &&& not32 UTF8_ONE_BYTE_MASK := by
  have hlt : ¬ (chars.idx ≥ chars.str.len) := by omega
  simp only [hail_chars_next, hlt, if_false, hsz, decodeAt]

theorem next_value_2 (chars : HailChars) (h : chars.idx < chars.str.len)
    (hsz : utf8_codepoint_size (load chars.str.ptr chars.idx) = 2) :
    (hail_chars_next chars).value
      = shl32 (load chars.str.ptr chars.idx &&& not32 UTF8_TWO_BYTES_MASK) 6 |||
          (load chars.str.ptr (chars.idx + 1) &&& not32 UTF8_CONTINUATION_MASK) := by
  have hlt : ¬ (chars.idx ≥ chars.str.len) := by omega
  simp only [hail_chars_next, hlt, if_false, hsz, decodeAt]

theorem next_value_3 (chars : HailChars) (h : chars.idx < chars.str.len)
    (hsz : utf8_codepoint_size (load chars.str.ptr chars.idx) = 3) :
    (hail_chars_next chars).value
      = shl32 (load chars.str.ptr chars.idx &&& not32 UTF8_THREE_BYTES_MASK) 12 |||
          shl32 (load chars.str.ptr (chars.idx + 1) &&& not32 UTF8_CONTINUATION_MASK) 6 |||
          (load chars.str.ptr (chars.idx + 2) &&& not32 UTF8_CONTINUATION_MASK) := by
  have hlt : ¬ (chars.idx ≥ chars.str.len) := by omega
  simp only [hail_chars_next, hlt, if_false, hsz, decodeAt]

theorem next_value_4 (chars : HailChars) (h : chars.idx < chars.str.len)
    (hsz : utf8_codepoint_size (load chars.str.ptr chars.idx) = 4) :
    (hail_chars_next chars).value
      = shl32 (load chars.str.ptr chars.idx &&& not32 UTF8_FOUR_BYTES_MASK) 18 |||
          shl32 (load chars.str.ptr (chars.idx + 1) &&& not32 UTF8_CONTINUATION_MASK) 12 |||
          shl32 (load chars.str.ptr (chars.idx + 2) &&& not32 UTF8_CONTINUATION_MASK) 6 |||
          (load chars.str.ptr (chars.idx + 3) &&& not32 UTF8_CONTINUATION_MASK) := by
  have hlt : ¬ (chars.idx ≥ chars.str.len) := by omega
  simp only [hail_chars_next, hlt, if_false, hsz, decodeAt]

/-! ## Classification of lead bytes -/

set_option maxRecDepth 100000 in
theorem size_iff_range : ∀ b, b < 256 →
    (utf8_codepoint_size b = 1 ↔ b ≤ 0x7F)
      ∧ (utf8_codepoint_size b = 2 ↔ (0xC0 ≤ b ∧ b ≤ 0xDF))
      ∧ (utf8_codepoint_size b = 3 ↔ (0xE0 ≤ b ∧ b ≤ 0xEF))
      ∧ (utf8_codepoint_size b = 4 ↔ (0xF0 ≤ b ∧ b ≤ 0xF7)) := by
  decide

set_option maxRecDepth 100000 in
theorem size_iff_pattern : ∀ b, b < 256 →
    (utf8_codepoint_size b = 1 ↔ b &&& UTF8_ONE_BYTE_MASK = UTF8_ONE_BYTE_BITS)
      ∧ (utf8_codepoint_size b = 2 ↔ b &&& UTF8_TWO_BYTES_MASK = UTF8_TWO_BYTES_BITS)
      ∧ (utf8_codepoint_size b = 3 ↔ b &&& UTF8_THREE_BYTES_MASK = UTF8_THREE_BYTES_BITS)
      ∧ (utf8_codepoint_size b = 4 ↔ b &&& UTF8_FOUR_BYTES_MASK = UTF8_FOUR_BYTES_BITS) := by
  decide

set_option maxRecDepth 100000 in
theorem patterns_exclusive : ∀ b, b < 256 →
    ¬ (b &&& UTF8_ONE_BYTE_MASK = UTF8_ONE_BYTE_BITS
        ∧ b &&& UTF8_TWO_BYTES_MASK = UTF8_TWO_BYTES_BITS)
      ∧ ¬ (b &&& UTF8_ONE_BYTE_MASK = UTF8_ONE_BYTE_BITS
        ∧ b &&& UTF8_THREE_BYTES_MASK = UTF8_THREE_BYTES_BITS)
      ∧ ¬ (b &&& UTF8_ONE_BYTE_MASK = UTF8_ONE_BYTE_BITS
        ∧ b &&& UTF8_FOUR_BYTES_MASK = UTF8_FOUR_BYTES_BITS)
      ∧ ¬ (b &&& UTF8_TWO_BYTES_MASK = UTF8_TWO_BYTES_BITS
        ∧ b &&& UTF8_THREE_BYTES_MASK = UTF8_THREE_BYTES_BITS)
      ∧ ¬ (b &&& UTF8_TWO_BYTES_MASK = UTF8_TWO_BYTES_BITS
        ∧ b &&& UTF8_FOUR_BYTES_MASK = UTF8_FOUR_BYTES_BITS)
      ∧ ¬ (b &&& UTF8_THREE_BYTES_MASK = UTF8_THREE_BYTES_BITS
        ∧ b &&& UTF8_FOUR_BYTES_MASK = UTF8_FOUR_BYTES_BITS) := by
  decide

/-- Claim C13 (lead-byte classification).  For every byte `b`,
`utf8_codepoint_size b` is 1 iff `b <= 0x7F`, 2 iff `0xC0 <= b <= 0xDF`, 3 iff
`0xE0 <= b <= 0xEF`, 4 iff `0xF0 <= b <= 0xF7` and 0 iff `b` is in `0x80..0xBF`
or `0xF8..0xFF`; size `n` is returned exactly when the `n`-th pattern matches, and
no byte matches two of the four patterns; and on every iterator with `idx < len` whose
current byte is `b` with non-zero size, `hail_chars_next` leaves
`idx + utf8_codepoint_size b`, whatever the other bytes are. -/
theorem lead_byte_classification (b : Nat) (hb : b < 256) :
    ((utf8_codepoint_size b = 1 ↔ b ≤ 0x7F)
      ∧ (utf8_codepoint_size b = 2 ↔ (0xC0 ≤ b ∧ b ≤ 0xDF))
      ∧ (utf8_codepoint_size b = 3 ↔ (0xE0 ≤ b ∧ b ≤ 0xEF))
      ∧ (utf8_codepoint_size b = 4 ↔ (0xF0 ≤ b ∧ b ≤ 0xF7))
      ∧ (utf8_codepoint_size b = 0 ↔ ((0x80 ≤ b ∧ b ≤ 0xBF) ∨ (0xF8 ≤ b ∧ b ≤ 0xFF))))
    ∧ ((utf8_codepoint_size b = 1 ↔ b &&& UTF8_ONE_BYTE_MASK = UTF8_ONE_BYTE_BITS)
      ∧ (utf8_codepoint_size b = 2 ↔ b &&& UTF8_TWO_BYTES_MASK = UTF8_TWO_BYTES_BITS)
      ∧ (utf8_codepoint_size b = 3 ↔ b &&& UTF8_THREE_BYTES_MASK = UTF8_THREE_BYTES_BITS)
      ∧ (utf8_codepoint_size b = 4 ↔ b &&& UTF8_FOUR_BYTES_MASK = UTF8_FOUR_BYTES_BITS))
    ∧ (¬ (b &&& UTF8_ONE_BYTE_MASK = UTF8_ONE_BYTE_BITS
          ∧ b &&& UTF8_TWO_BYTES_MASK = UTF8_TWO_BYTES_BITS)
      ∧ ¬ (b &&& UTF8_ONE_BYTE_MASK = UTF8_ONE_BYTE_BITS
          ∧ b &&& UTF8_THREE_BYTES_MASK = UTF8_THREE_BYTES_BITS)
      ∧ ¬ (b &&& UTF8_ONE_BYTE_MASK = UTF8_ONE_BYTE_BITS
          ∧ b &&& UTF8_FOUR_BYTES_MASK = UTF8_FOUR_BYTES_BITS)
      ∧ ¬ (b &&& UTF8_TWO_BYTES_MASK = UTF8_TWO_BYTES_BITS
          ∧ b &&& UTF8_THREE_BYTES_MASK = UTF8_THREE_BYTES_BITS)
      ∧ ¬ (b &&& UTF8_TWO_BYTES_MASK = UTF8_TWO_BYTES_BITS
          ∧ b &&& UTF8_FOUR_BYTES_MASK = UTF8_FOUR_BYTES_BITS)
      ∧ ¬ (b &&& UTF8_THREE_BYTES_MASK = UTF8_THREE_BYTES_BITS
          ∧ b &&& UTF8_FOUR_BYTES_MASK = UTF8_FOUR_BYTES_BITS))
    ∧ (∀ chars : HailChars, chars.idx < chars.str.len →
        load chars.str.ptr chars.idx = b → utf8_codepoint_size b ≠ 0 →
          (hail_chars_next chars).chars.idx = chars.idx + utf8_codepoint_size b
            ∧ (hail_chars_next chars).chars.str = chars.str) := by
  obtain ⟨r1, r2, r3, r4⟩ := size_iff_range b hb
  refine ⟨⟨r1, r2, r3, r4, size_zero_iff b hb⟩, size_iff_pattern b hb,
    patterns_exclusive b hb, fun chars hlt hbyte hsz => ?_⟩
  subst hbyte
  rw [next_chars_of_valid chars hlt hsz]
  exact ⟨rfl, rfl⟩

/-! ## Continuation bytes -/

/-- Claim C14 (continuation bytes are not validated).  If two strings of equal
length hold the same byte at `p` and, at the offsets `p + i` with
`1 <= i < utf8_codepoint_size` of that byte, bytes with the same low 6 bits, then
`hail_chars_next` at `p` returns the same value and leaves the same `idx` on
both. -/
theorem continuation_not_validated (s1 s2 : HailStr) (p : Nat) (hlen : s1.len = s2.len)
    (hlead : load s1.ptr p = load s2.ptr p)
    (hcont : ∀ i, 1 ≤ i → i < utf8_codepoint_size (load s1.ptr p) →
      load s1.ptr (p + i) &&& 0x3F = load s2.ptr (p + i) &&& 0x3F) :
    (hail_chars_next ⟨p, s1⟩).value = (hail_chars_next ⟨p, s2⟩).value
      ∧ (hail_chars_next ⟨p, s1⟩).chars.idx = (hail_chars_next ⟨p, s2⟩).chars.idx := by
  by_cases hlt : p < s1.len
  · have hlt2 : p < s2.len := by omega
    have c1 : (⟨p, s1⟩ : HailChars).idx < (⟨p, s1⟩ : HailChars).str.len := hlt
    have c2 : (⟨p, s2⟩ : HailChars).idx < (⟨p, s2⟩ : HailChars).str.len := hlt2
    by_cases hsz : utf8_codepoint_size (load s1.ptr p) = 0
    · have hsz2 : utf8_codepoint_size (load s2.ptr p) = 0 := by rw [← hlead]; exact hsz
      rw [next_of_invalid ⟨p, s1⟩ c1 hsz, next_of_invalid ⟨p, s2⟩ c2 hsz2]
      exact ⟨rfl, rfl⟩
    · have hsz2 : utf8_codepoint_size (load s2.ptr p) ≠ 0 := by rw [← hlead]; exact hsz
      refine ⟨?_, ?_⟩
      · rcases size_cases (load s1.ptr p) with h0 | h1 | h2 | h3 | h4
        · exact absurd h0 hsz
        · rw [next_value_1 ⟨p, s1⟩ c1 h1, next_value_1 ⟨p, s2⟩ c2 (by rw [← hlead]; exact h1)]
          show load s1.ptr p &&& _ = load s2.ptr p &&& _
          rw [hlead]
        · have e1 := hcont 1 (by omega) (by omega)
          rw [next_value_2 ⟨p, s1⟩ c1 h2, next_value_2 ⟨p, s2⟩ c2 (by rw [← hlead]; exact h2)]
          show shl32 (load s1.ptr p &&& _) 6 ||| (load s1.ptr (p + 1) &&& _)
            = shl32 (load s2.ptr p &&& _) 6 ||| (load s2.ptr (p + 1) &&& _)
          rw [hlead, cont_bits _ (load_lt _ _), cont_bits _ (load_lt _ _), e1]
        · have e1 := hcont 1 (by omega) (by omega)
          have e2 := hcont 2 (by omega) (by omega)
          rw [next_value_3 ⟨p, s1⟩ c1 h3, next_value_3 ⟨p, s2⟩ c2 (by rw [← hlead]; exact h3)]
          show shl32 (load s1.ptr p &&& _) 12 ||| shl32 (load s1.ptr (p + 1) &&& _) 6
              ||| (load s1.ptr (p + 2) &&& _)
            = shl32 (load s2.ptr p &&& _) 12 ||| shl32 (load s2.ptr (p + 1) &&& _) 6
              ||| (load s2.ptr (p + 2) &&& _)
          rw [hlead, cont_bits_shl6 _ (load_lt _ _), cont_bits_shl6 _ (load_lt _ _),
            cont_bits _ (load_lt _ _), cont_bits _ (load_lt _ _), e1, e2]
        · have e1 := hcont 1 (by omega) (by omega)
          have e2 := hcont 2 (by omega) (by omega)
          have e3 := hcont 3 (by omega) (by omega)
          rw [next_value_4 ⟨p, s1⟩ c1 h4, next_value_4 ⟨p, s2⟩ c2 (by rw [← hlead]; exact h4)]
          show shl32 (load s1.ptr p &&& _) 18 ||| shl32 (load s1.ptr (p + 1) &&& _) 12
              ||| shl32 (load s1.ptr (p + 2) &&& _) 6 ||| (load s1.ptr (p + 3) &&& _)
            = shl32 (load s2.ptr p &&& _) 18 ||| shl32 (load s2.ptr (p + 1) &&& _) 12
              ||| shl32 (load s2.ptr (p + 2) &&& _) 6 ||| (load s2.ptr (p + 3) &&& _)
          rw [hlead, cont_bits_shl12 _ (load_lt _ _), cont_bits_shl12 _ (load_lt _ _),
            cont_bits_shl6 _ (load_lt _ _), cont_bits_shl6 _ (load_lt _ _),
            cont_bits _ (load_lt _ _), cont_bits _ (load_lt _ _), e1, e2, e3]
      · rw [next_chars_of_valid ⟨p, s1⟩ c1 hsz, next_chars_of_valid ⟨p, s2⟩ c2 hsz2]
        show p + utf8_codepoint_size (load s1.ptr p) = p + utf8_codepoint_size (load s2.ptr p)
        rw [hlead]
  · rw [next_of_exhausted ⟨p, s1⟩ (show s1.len ≤ p by omega),
      next_of_exhausted ⟨p, s2⟩ (show s2.len ≤ p by omega)]
    exact ⟨rfl, rfl⟩

/-! ## The C string in the buffer after the encoder, for a codepoint below `0x200000` -/

theorem enc_cstring_1 (c : Nat) (buf : BytePtr) (h0 : 0 < c) (h1 : c < 0x80) :
    cstring (utf32_to_utf8_string c buf) 5 0 = some [c] := by
  obtain ⟨l0, l1, _⟩ := enc_spec_1 c buf h1
  have n0 : ¬ c = 0 := by omega
  simp [cstring, l0, l1, n0]

theorem enc_cstring_2 (c : Nat) (buf : BytePtr) (h1 : 0x80 ≤ c) (h2 : c < 0x800) :
    cstring (utf32_to_utf8_string c buf) 5 0 = some [0xC0 ||| (c >>> 6), 0x80 ||| (c &&& 0x3F)] := by
  obtain ⟨l0, l1, l2, _⟩ := enc_spec_2 c buf h1 h2
  have hx := (enc_lead2 _ (shr_lt c 6 32 (by norm_num; omega))).2.1
  have hy := (enc_cont _ (and_3f_lt c)).2.1
  simp only [cstring, Nat.zero_add, l0, l1, l2, if_neg hx, if_neg hy, if_true]

theorem enc_cstring_3 (c : Nat) (buf : BytePtr) (h1 : 0x800 ≤ c) (h2 : c < 0x10000) :
    cstring (utf32_to_utf8_string c buf) 5 0
      = some [0xE0 ||| (c >>> 12), 0x80 ||| ((c >>> 6) &&& 0x3F), 0x80 ||| (c &&& 0x3F)] := by
  obtain ⟨l0, l1, l2, l3, _⟩ := enc_spec_3 c buf h1 h2
  have hx := (enc_lead3 _ (shr_lt c 12 16 (by norm_num; omega))).2.1
  have hy := (enc_cont _ (and_3f_lt (c >>> 6))).2.1
  have hz := (enc_cont _ (and_3f_lt c)).2.1
  simp only [cstring, Nat.zero_add, l0, l1, l2, l3, if_neg hx, if_neg hy,
    if_neg hz, if_true]

theorem enc_cstring_4 (c : Nat) (buf : BytePtr) (h1 : 0x10000 ≤ c) (h2 : c < 0x200000) :
    cstring (utf32_to_utf8_string c buf) 5 0
      = some [0xF0 ||| (c >>> 18), 0x80 ||| ((c >>> 12) &&& 0x3F),
          0x80 ||| ((c >>> 6) &&& 0x3F), 0x80 ||| (c &&& 0x3F)] := by
  obtain ⟨l0, l1, l2, l3, l4, _⟩ := enc_spec_4 c buf h1 h2
  have hw := (enc_lead4 _ (shr_lt c 18 8 (by norm_num; omega))).2.1
  have hx := (enc_cont _ (and_3f_lt (c >>> 12))).2.1
  have hy := (enc_cont _ (and_3f_lt (c >>> 6))).2.1
  have hz := (enc_cont _ (and_3f_lt c)).2.1
  simp only [cstring, Nat.zero_add, l0, l1, l2, l3, l4, if_neg hw, if_neg hx,
    if_neg hy, if_neg hz, if_true]

theorem enc_cstring_zero (buf : BytePtr) : cstring (utf32_to_utf8_string 0 buf) 5 0 = some [] := by
  obtain ⟨l0, _, _⟩ := enc_spec_1 0 buf (by decide)
  simp [cstring, l0]

theorem enc_cstring_eq_encoding (c : Nat) (buf : BytePtr) (h : c < 0x200000) :
    cstring (utf32_to_utf8_string c buf) 5 0 = some (encoding c) := by
  have key : ∀ L, (∀ b, cstring (utf32_to_utf8_string c b) 5 0 = some L) → cstring (utf32_to_utf8_string c buf) 5 0 = some (encoding c) := by
    intro L hL
    have e : encoding c = L := by
      show (cstring (utf32_to_utf8_string c (cstr [])) 5 0).getD [] = L
      rw [hL]; rfl
    rw [e]; exact hL buf
  by_cases h0 : c = 0
  · subst h0; exact key _ (fun b => enc_cstring_zero b)
  by_cases a : c < 0x80
  · exact key _ (fun b => enc_cstring_1 c b (by omega) a)
  by_cases b : c < 0x800
  · exact key _ (fun b' => enc_cstring_2 c b' (by omega) b)
  by_cases d : c < 0x10000
  · exact key _ (fun b' => enc_cstring_3 c b' (by omega) d)
  · exact key _ (fun b' => enc_cstring_4 c b' (by omega) h)

theorem encoding_eq_of_cstring (c : Nat) (L : List Nat)
    (h : cstring (utf32_to_utf8_string c (cstr [])) 5 0 = some L) : encoding c = L := by
  show (cstring (utf32_to_utf8_string c (cstr [])) 5 0).getD [] = L
  rw [h]; rfl

theorem encoding_1 (c : Nat) (h0 : 0 < c) (h1 : c < 0x80) : encoding c = [c] :=
  encoding_eq_of_cstring c _ (enc_cstring_1 c _ h0 h1)

theorem encoding_2 (c : Nat) (h1 : 0x80 ≤ c) (h2 : c < 0x800) :
    encoding c = [0xC0 ||| (c >>> 6), 0x80 ||| (c &&& 0x3F)] :=
  encoding_eq_of_cstring c _ (enc_cstring_2 c _ h1 h2)

theorem encoding_3 (c : Nat) (h1 : 0x800 ≤ c) (h2 : c < 0x10000) :
    encoding c
      = [0xE0 ||| (c >>> 12), 0x80 ||| ((c >>> 6) &&& 0x3F), 0x80 ||| (c &&& 0x3F)] :=
  encoding_eq_of_cstring c _ (enc_cstring_3 c _ h1 h2)

theorem encoding_4 (c : Nat) (h1 : 0x10000 ≤ c) (h2 : c < 0x200000) :
    encoding c
      = [0xF0 ||| (c >>> 18), 0x80 ||| ((c >>> 12) &&& 0x3F),
          0x80 ||| ((c >>> 6) &&& 0x3F), 0x80 ||| (c &&& 0x3F)] :=
  encoding_eq_of_cstring c _ (enc_cstring_4 c _ h1 h2)

/-- Every byte of an encoding is a non-zero byte, and an encoding of a non-zero
codepoint is not empty. -/
theorem encoding_bytes (c : Nat) (h0 : 0 < c) (h1 : c < 0x200000) :
    1 ≤ (encoding c).length ∧ ∀ b ∈ encoding c, b ≠ 0 ∧ b < 256 := by
  by_cases a : c < 0x80
  · rw [encoding_1 c h0 a]
    refine ⟨by simp, fun b hb => ?_⟩
    simp only [List.mem_singleton] at hb
    subst hb; omega
  by_cases b : c < 0x800
  · rw [encoding_2 c (by omega) b]
    have hx := enc_lead2 _ (shr_lt c 6 32 (by norm_num; omega))
    have hy := enc_cont _ (and_3f_lt c)
    refine ⟨by simp, fun x hx' => ?_⟩
    simp only [List.mem_cons, List.mem_singleton, List.not_mem_nil, or_false] at hx'
    rcases hx' with rfl | rfl
    · exact ⟨hx.2.1, hx.1⟩
    · exact ⟨hy.2.1, hy.1⟩
  by_cases d : c < 0x10000
  · rw [encoding_3 c (by omega) d]
    have hx := enc_lead3 _ (shr_lt c 12 16 (by norm_num; omega))
    have hy := enc_cont _ (and_3f_lt (c >>> 6))
    have hz := enc_cont _ (and_3f_lt c)
    refine ⟨by simp, fun x hx' => ?_⟩
    simp only [List.mem_cons, List.mem_singleton, List.not_mem_nil, or_false] at hx'
    rcases hx' with rfl | rfl | rfl
    · exact ⟨hx.2.1, hx.1⟩
    · exact ⟨hy.2.1, hy.1⟩
    · exact ⟨hz.2.1, hz.1⟩
  · rw [encoding_4 c (by omega) h1]
    have hw := enc_lead4 _ (shr_lt c 18 8 (by norm_num; omega))
    have hx := enc_cont _ (and_3f_lt (c >>> 12))
    have hy := enc_cont _ (and_3f_lt (c >>> 6))
    have hz := enc_cont _ (and_3f_lt c)
    refine ⟨by simp, fun x hx' => ?_⟩
    simp only [List.mem_cons, List.mem_singleton, List.not_mem_nil, or_false] at hx'
    rcases hx' with rfl | rfl | rfl | rfl
    · exact ⟨hw.2.1, hw.1⟩
    · exact ⟨hx.2.1, hx.1⟩
    · exact ⟨hy.2.1, hy.1⟩
    · exact ⟨hz.2.1, hz.1⟩

/-! ## What `write_char` sends for a codepoint below `0x200000` -/

set_option maxRecDepth 100000 in
theorem enc_bytes_ne_percent :
    (∀ x, x < 32 → (0xC0 ||| x) ≠ 0x25) ∧ (∀ x, x < 16 → (0xE0 ||| x) ≠ 0x25)
      ∧ (∀ x, x < 8 → (0xF0 ||| x) ≠ 0x25) ∧ (∀ y, y < 64 → (0x80 ||| y) ≠ 0x25) := by
  decide

theorem encoding_no_percent (c : Nat) (h0 : 0 < c) (h1 : c < 0x200000) (hp : c ≠ 0x25) :
    ∀ b ∈ encoding c, b ≠ 0x25 := by
  obtain ⟨p2, p3, p4, pc⟩ := enc_bytes_ne_percent
  by_cases a : c < 0x80
  · rw [encoding_1 c h0 a]
    intro b hb
    simp only [List.mem_singleton] at hb
    subst hb; exact hp
  by_cases b : c < 0x800
  · rw [encoding_2 c (by omega) b]
    intro x hx
    simp only [List.mem_cons, List.mem_singleton, List.not_mem_nil, or_false] at hx
    rcases hx with rfl | rfl
    · exact p2 _ (shr_lt c 6 32 (by norm_num; omega))
    · exact pc _ (and_3f_lt c)
  by_cases d : c < 0x10000
  · rw [encoding_3 c (by omega) d]
    intro x hx
    simp only [List.mem_cons, List.mem_singleton, List.not_mem_nil, or_false] at hx
    rcases hx with rfl | rfl | rfl
    · exact p3 _ (shr_lt c 12 16 (by norm_num; omega))
    · exact pc _ (and_3f_lt (c >>> 6))
    · exact pc _ (and_3f_lt c)
  · rw [encoding_4 c (by omega) h1]
    intro x hx
    simp only [List.mem_cons, List.mem_singleton, List.not_mem_nil, or_false] at hx
    rcases hx with rfl | rfl | rfl | rfl
    · exact p4 _ (shr_lt c 18 8 (by norm_num; omega))
    · exact pc _ (and_3f_lt (c >>> 12))
    · exact pc _ (and_3f_lt (c >>> 6))
    · exact pc _ (and_3f_lt c)

theorem fprintf_noargs_of_no_percent (l : List Nat) (h : ∀ b ∈ l, b ≠ 0x25) :
    fprintf_noargs l = some l := by
  induction l with
  | nil => rfl
  | cons b rest ih =>
    have hb : ¬ b = 0x25 := h b (by simp)
    have hr := ih (fun x hx => h x (by simp [hx]))
    unfold fprintf_noargs
    rw [if_neg hb, hr]

/-- For a codepoint below `0x200000`, `write_char` sends its encoding, except for
`%` (`0x25`), whose encoding is the format `%` and for which nothing is sent. -/
theorem write_char_of_lt (c : Nat) (buf : BytePtr) (h : c < 0x200000) :
    write_char c buf = some (if c = 0x25 then [] else encoding c) := by
  have hbuf := enc_cstring_eq_encoding c buf h
  by_cases hp : c = 0x25
  · subst hp
    rw [if_pos rfl]
    simp only [write_char, hbuf]
    rfl
  · rw [if_neg hp]
    simp only [write_char, hbuf]
    by_cases h0 : c = 0
    · subst h0
      have : encoding 0 = [] := encoding_eq_of_cstring 0 _ (enc_cstring_zero _)
      rw [this]; rfl
    · exact fprintf_noargs_of_no_percent _ (encoding_no_percent c (by omega) h hp)

/-! ## Decoding an encoding found at any offset -/

theorem next_at_2 (s : HailStr) (p c : Nat) (hp : p < s.len) (h1 : c < 0x800)
    (l0 : load s.ptr p = 0xC0 ||| (c >>> 6))
    (l1 : load s.ptr (p + 1) = 0x80 ||| (c &&& 0x3F)) :
    (hail_chars_next ⟨p, s⟩).value = c ∧ (hail_chars_next ⟨p, s⟩).chars = ⟨p + 2, s⟩ := by
  have hx := enc_lead2 _ (shr_lt c 6 32 (by norm_num; omega))
  have hy := enc_cont _ (and_3f_lt c)
  have hsz : utf8_codepoint_size (load s.ptr p) = 2 := by rw [l0]; exact hx.2.2.1
  have hc : (⟨p, s⟩ : HailChars).idx < (⟨p, s⟩ : HailChars).str.len := hp
  constructor
  · rw [next_value_2 ⟨p, s⟩ hc hsz]
    show shl32 (load s.ptr p &&& _) 6 ||| (load s.ptr (p + 1) &&& _) = c
    rw [l0, l1, hx.2.2.2, hy.2.2.1, or2 _ _ (and_3f_lt c), and_3f,
      Nat.shiftRight_eq_div_pow]
    omega
  · rw [next_chars_of_valid ⟨p, s⟩ hc (by rw [hsz]; decide)]
    show (⟨p + utf8_codepoint_size (load s.ptr p), s⟩ : HailChars) = ⟨p + 2, s⟩
    rw [hsz]

theorem next_at_3 (s : HailStr) (p c : Nat) (hp : p < s.len) (h1 : c < 0x10000)
    (l0 : load s.ptr p = 0xE0 ||| (c >>> 12))
    (l1 : load s.ptr (p + 1) = 0x80 ||| ((c >>> 6) &&& 0x3F))
    (l2 : load s.ptr (p + 2) = 0x80 ||| (c &&& 0x3F)) :
    (hail_chars_next ⟨p, s⟩).value = c ∧ (hail_chars_next ⟨p, s⟩).chars = ⟨p + 3, s⟩ := by
  have hx := enc_lead3 _ (shr_lt c 12 16 (by norm_num; omega))
  have hy := enc_cont _ (and_3f_lt (c >>> 6))
  have hz := enc_cont _ (and_3f_lt c)
  have hsz : utf8_codepoint_size (load s.ptr p) = 3 := by rw [l0]; exact hx.2.2.1
  have hc : (⟨p, s⟩ : HailChars).idx < (⟨p, s⟩ : HailChars).str.len := hp
  constructor
  · rw [next_value_3 ⟨p, s⟩ hc hsz]
    show shl32 (load s.ptr p &&& _) 12 ||| shl32 (load s.ptr (p + 1) &&& _) 6
      ||| (load s.ptr (p + 2) &&& _) = c
    rw [l0, l1, l2, hx.2.2.2, hy.2.2.2.1, hz.2.2.1,
      or3 _ _ _ (and_3f_lt (c >>> 6)) (and_3f_lt c), and_3f, and_3f,
      Nat.shiftRight_eq_div_pow, Nat.shiftRight_eq_div_pow]
    omega
  · rw [next_chars_of_valid ⟨p, s⟩ hc (by rw [hsz]; decide)]
    show (⟨p + utf8_codepoint_size (load s.ptr p), s⟩ : HailChars) = ⟨p + 3, s⟩
    rw [hsz]

theorem next_at_4 (s : HailStr) (p c : Nat) (hp : p < s.len) (h1 : c < 0x200000)
    (l0 : load s.ptr p = 0xF0 ||| (c >>> 18))
    (l1 : load s.ptr (p + 1) = 0x80 ||| ((c >>> 12) &&& 0x3F))
    (l2 : load s.ptr (p + 2) = 0x80 ||| ((c >>> 6) &&& 0x3F))
    (l3 : load s.ptr (p + 3) = 0x80 ||| (c &&& 0x3F)) :
    (hail_chars_next ⟨p, s⟩).value = c ∧ (hail_chars_next ⟨p, s⟩).chars = ⟨p + 4, s⟩ := by
  have hw := enc_lead4 _ (shr_lt c 18 8 (by norm_num; omega))
  have hx := enc_cont _ (and_3f_lt (c >>> 12))
  have hy := enc_cont _ (and_3f_lt (c >>> 6))
  have hz := enc_cont _ (and_3f_lt c)
  have hsz : utf8_codepoint_size (load s.ptr p) = 4 := by rw [l0]; exact hw.2.2.1
  have hc : (⟨p, s⟩ : HailChars).idx < (⟨p, s⟩ : HailChars).str.len := hp
  constructor
  · rw [next_value_4 ⟨p, s⟩ hc hsz]
    show shl32 (load s.ptr p &&& _) 18 ||| shl32 (load s.ptr (p + 1) &&& _) 12
      ||| shl32 (load s.ptr (p + 2) &&& _) 6 ||| (load s.ptr (p + 3) &&& _) = c
    rw [l0, l1, l2, l3, hw.2.2.2, hx.2.2.2.2, hy.2.2.2.1, hz.2.2.1,
      or4 _ _ _ _ (and_3f_lt (c >>> 12)) (and_3f_lt (c >>> 6)) (and_3f_lt c),
      and_3f, and_3f, and_3f,
      Nat.shiftRight_eq_div_pow, Nat.shiftRight_eq_div_pow, Nat.shiftRight_eq_div_pow]
    omega
  · rw [next_chars_of_valid ⟨p, s⟩ hc (by rw [hsz]; decide)]
    show (⟨p + utf8_codepoint_size (load s.ptr p), s⟩ : HailChars) = ⟨p + 4, s⟩
    rw [hsz]

/-- If the bytes of the encoding of `c` stand at offset `p` of a string, with
`p < len`, the call at `p` returns `c` and moves past the encoding. -/
theorem next_on_encoding (s : HailStr) (p c : Nat) (h0 : 0 < c) (h1 : c < 0x200000)
    (hp : p < s.len)
    (hb : ∀ i, i < (encoding c).length → load s.ptr (p + i) = (encoding c).getD i 0) :
    (hail_chars_next ⟨p, s⟩).value = c
      ∧ (hail_chars_next ⟨p, s⟩).chars = ⟨p + (encoding c).length, s⟩ := by
  by_cases a : c < 0x80
  · rw [encoding_1 c h0 a] at hb ⊢
    have l0 := hb 0 (by simp)
    simp only [Nat.add_zero, List.getD_cons_zero] at l0
    have h := next_ascii s p hp (by rw [l0]; exact a)
    exact ⟨h.1.trans l0, h.2⟩
  by_cases b : c < 0x800
  · rw [encoding_2 c (by omega) b] at hb ⊢
    have l0 := hb 0 (by simp)
    have l1 := hb 1 (by simp)
    simp only [Nat.add_zero, List.getD_cons_zero, List.getD_cons_succ] at l0 l1
    exact next_at_2 s p c hp b l0 l1
  by_cases d : c < 0x10000
  · rw [encoding_3 c (by omega) d] at hb ⊢
    have l0 := hb 0 (by simp)
    have l1 := hb 1 (by simp)
    have l2 := hb 2 (by simp)
    simp only [Nat.add_zero, List.getD_cons_zero, List.getD_cons_succ] at l0 l1 l2
    exact next_at_3 s p c hp d l0 l1 l2
  · rw [encoding_4 c (by omega) h1] at hb ⊢
    have l0 := hb 0 (by simp)
    have l1 := hb 1 (by simp)
    have l2 := hb 2 (by simp)
    have l3 := hb 3 (by simp)
    simp only [Nat.add_zero, List.getD_cons_zero, List.getD_cons_succ] at l0 l1 l2 l3
    exact next_at_4 s p c hp h1 l0 l1 l2 l3

/-! ## A string made of encodings laid end to end -/

theorem encodeAll_bytes (cs : List Nat) (hcs : ∀ c ∈ cs, 0 < c ∧ c < 0x200000) :
    ∀ b ∈ encodeAll cs, b ≠ 0 ∧ b < 256 := by
  induction cs with
  | nil => intro b hb; simp [encodeAll] at hb
  | cons c rest ih =>
    intro b hb
    simp only [encodeAll, List.mem_append] at hb
    rcases hb with hb | hb
    · exact (encoding_bytes c (hcs c (by simp)).1 (hcs c (by simp)).2).2 b hb
    · exact ih (fun c' hc' => hcs c' (by simp [hc'])) b hb

/-- The hypothesis that a list of bytes stands at offset `p`, split at an
append. -/
theorem bytes_at_append (ptr : BytePtr) (p : Nat) (l l' : List Nat)
    (hb : ∀ i, i < (l ++ l').length → load ptr (p + i) = (l ++ l').getD i 0) :
    (∀ i, i < l.length → load ptr (p + i) = l.getD i 0)
      ∧ (∀ i, i < l'.length → load ptr (p + l.length + i) = l'.getD i 0) := by
  constructor
  · intro i hi
    rw [hb i (by rw [List.length_append]; omega), List.getD_append _ _ _ _ hi]
  · intro i hi
    have := hb (l.length + i) (by rw [List.length_append]; omega)
    rw [List.getD_append_right _ _ _ _ (by omega)] at this
    rw [Nat.add_assoc, this]
    congr 1
    omega

theorem decode_all (s : HailStr) :
    ∀ (cs : List Nat) (p : Nat), (∀ c ∈ cs, 0 < c ∧ c < 0x200000) →
      (∀ i, i < (encodeAll cs).length → load s.ptr (p + i) = (encodeAll cs).getD i 0) →
      p + (encodeAll cs).length ≤ s.len →
      ∀ k, k ≤ cs.length →
        nextN k ⟨p, s⟩ = ⟨p + (encodeAll (cs.take k)).length, s⟩
          ∧ (k < cs.length → (hail_chars_next (nextN k ⟨p, s⟩)).value = cs.getD k 0) := by
  intro cs
  induction cs with
  | nil =>
    intro p _ _ _ k hk
    have : k = 0 := by simpa using hk
    subst this
    exact ⟨rfl, fun h => absurd h (by simp)⟩
  | cons c rest ih =>
    intro p hcs hb hlen k hk
    obtain ⟨hc0, hc1⟩ := hcs c (by simp)
    have hcs' : ∀ c' ∈ rest, 0 < c' ∧ c' < 0x200000 := fun c' hc' => hcs c' (by simp [hc'])
    obtain ⟨hb1, hb2⟩ := bytes_at_append s.ptr p (encoding c) (encodeAll rest) hb
    have hpos := (encoding_bytes c hc0 hc1).1
    have hlen' : p + (encoding c).length + (encodeAll rest).length ≤ s.len := by
      simp only [encodeAll, List.length_append] at hlen
      omega
    obtain ⟨hv, hch⟩ := next_on_encoding s p c hc0 hc1 (by omega) hb1
    cases k with
    | zero => exact ⟨rfl, fun _ => hv⟩
    | succ k =>
      have hk' : k ≤ rest.length := by simpa using hk
      obtain ⟨i1, i2⟩ := ih (p + (encoding c).length) hcs' hb2 hlen' k hk'
      rw [nextN_succ_front, hch]
      refine ⟨?_, fun hlt => ?_⟩
      · rw [i1]
        simp only [List.take_succ_cons, encodeAll, List.length_append]
        congr 1
        omega
      · have := i2 (by simpa using hlt)
        rw [this]
        rfl

theorem load_cstr (l : List Nat) (i : Nat) : load (cstr l) i = l.getD i 0 % 256 := rfl

theorem load_cstr_terminated (bs : List Nat) (hbs : ∀ b ∈ bs, b ≠ 0 ∧ b < 256) :
    (∀ i, i < bs.length → load (cstr (bs ++ [0])) i = bs.getD i 0)
      ∧ load (cstr (bs ++ [0])) bs.length = 0
      ∧ ∀ i, i < bs.length → load (cstr (bs ++ [0])) i ≠ 0 := by
  have h1 : ∀ i, i < bs.length → load (cstr (bs ++ [0])) i = bs.getD i 0 := by
    intro i hi
    rw [load_cstr, List.getD_append _ _ _ _ hi]
    have hm : bs.getD i 0 ∈ bs := by
      rw [List.getD_eq_getElem _ _ hi]
      exact List.getElem_mem hi
    exact Nat.mod_eq_of_lt (hbs _ hm).2
  refine ⟨h1, ?_, fun i hi => ?_⟩
  · rw [load_cstr, List.getD_append_right _ _ _ _ (le_refl _)]
    simp
  · rw [h1 i hi]
    have hm : bs.getD i 0 ∈ bs := by
      rw [List.getD_eq_getElem _ _ hi]
      exact List.getElem_mem hi
    exact (hbs _ hm).1

theorem hail_str_from_cstr (bs : List Nat) (hbs : ∀ b ∈ bs, b ≠ 0 ∧ b < 256) (fuel : Nat)
    (hf : bs.length < fuel) :
    hail_str_from (cstr (bs ++ [0])) fuel
      = some { ptr := cstr (bs ++ [0]), slice := false, len := bs.length } := by
  obtain ⟨_, hz, hnz⟩ := load_cstr_terminated bs hbs
  simp only [hail_str_from, strlen_first_zero _ bs.length fuel hf hz hnz]

theorem bytesOf_cstr (bs : List Nat) (hbs : ∀ b ∈ bs, b ≠ 0 ∧ b < 256) :
    bytesOf { ptr := cstr (bs ++ [0]), slice := false, len := bs.length } = bs := by
  obtain ⟨h1, _, _⟩ := load_cstr_terminated bs hbs
  apply List.ext_getElem
  · simp [bytesOf]
  · intro i hi1 hi2
    simp only [bytesOf, List.getElem_map, List.getElem_range]
    rw [h1 i hi2, List.getD_eq_getElem _ _ hi2]

theorem sequence_calls (s : HailStr) (cs : List Nat)
    (hcs : ∀ c ∈ cs, 0 < c ∧ c < 0x200000)
    (hb : ∀ i, i < (encodeAll cs).length → load s.ptr i = (encodeAll cs).getD i 0)
    (hlen : s.len = (encodeAll cs).length) :
    (∀ k, k < cs.length →
        (hail_chars_next (nextN k (hail_str_chars s))).value = cs.getD k 0
          ∧ (nextN (k + 1) (hail_str_chars s)).idx
              = (encodeAll (cs.take (k + 1))).length)
      ∧ (hail_chars_next (nextN cs.length (hail_str_chars s))).value = 0
      ∧ (nextN (cs.length + 1) (hail_str_chars s)).idx = s.len := by
  have key := decode_all s cs 0 hcs
    (fun i hi => by rw [Nat.zero_add]; exact hb i hi) (by omega)
  have hend : nextN cs.length (hail_str_chars s) = ⟨s.len, s⟩ := by
    have := (key cs.length (le_refl _)).1
    rw [List.take_length, Nat.zero_add, ← hlen] at this
    exact this
  have hex := next_of_exhausted ⟨s.len, s⟩ (le_refl _)
  refine ⟨fun k hk => ⟨(key k (by omega)).2 hk, ?_⟩, ?_, ?_⟩
  · have := (key (k + 1) (by omega)).1
    show (nextN (k + 1) ⟨0, s⟩).idx = _
    rw [this]
    show 0 + _ = _
    omega
  · rw [hend, hex]
  · show (hail_chars_next (nextN cs.length (hail_str_chars s))).chars.idx = s.len
    rw [hend, hex]

/-- Claim C17 (sequence round trip).  For codepoints `c_1 .. c_n` with
`0 < c_i < 0x200000`, `hail_str_from` of their encodings laid end to end and
followed by a 0 byte returns a string `s` whose `len` is the total encoded
length; on the iterator from `hail_str_chars s` the `(k+1)`-th call of
`hail_chars_next` (`k < n`) returns `c_(k+1)` and leaves `idx` equal to the total
encoded length of `c_1 .. c_(k+1)`, and the `(n+1)`-th call returns 0 with
`idx = s.len`. -/
theorem sequence_decoded (cs : List Nat) (hcs : ∀ c ∈ cs, 0 < c ∧ c < 0x200000)
    (fuel : Nat) (hf : (encodeAll cs).length < fuel) :
    ∃ s, hail_str_from (cstr (encodeAll cs ++ [0])) fuel = some s
      ∧ s.len = (encodeAll cs).length
      ∧ (∀ k, k < cs.length →
          (hail_chars_next (nextN k (hail_str_chars s))).value = cs.getD k 0
            ∧ (nextN (k + 1) (hail_str_chars s)).idx
                = (encodeAll (cs.take (k + 1))).length)
      ∧ (hail_chars_next (nextN cs.length (hail_str_chars s))).value = 0
      ∧ (nextN (cs.length + 1) (hail_str_chars s)).idx = s.len := by
  have hbs := encodeAll_bytes cs hcs
  obtain ⟨h1, _, _⟩ := load_cstr_terminated (encodeAll cs) hbs
  exact ⟨_, hail_str_from_cstr _ hbs fuel hf, rfl, sequence_calls _ cs hcs h1 rfl⟩

/-! ## `println` -/

theorem next_diag_of_valid (chars : HailChars) (h : chars.idx < chars.str.len)
    (hsz : utf8_codepoint_size (load chars.str.ptr chars.idx) ≠ 0) :
    (hail_chars_next chars).diag = false := by
  have hlt : ¬ (chars.idx ≥ chars.str.len) := by omega
  rcases size_cases (load chars.str.ptr chars.idx) with h0 | h1 | h2 | h3 | h4
  · exact absurd h0 hsz
  · simp only [hail_chars_next, hlt, if_false, h1, decodeAt]
  · simp only [hail_chars_next, hlt, if_false, h2, decodeAt]
  · simp only [hail_chars_next, hlt, if_false, h3, decodeAt]
  · simp only [hail_chars_next, hlt, if_false, h4, decodeAt]

/-- A call that returns a non-zero value writes nothing to `stdout`. -/
theorem next_stdout_of_value (chars : HailChars) (hv : (hail_chars_next chars).value ≠ 0) :
    next_stdout (hail_chars_next chars) = [] := by
  by_cases h : chars.idx < chars.str.len
  · by_cases hsz : utf8_codepoint_size (load chars.str.ptr chars.idx) = 0
    · rw [next_of_invalid chars h hsz] at hv
      exact absurd rfl hv
    · simp only [next_stdout, next_diag_of_valid chars h hsz]
      rfl
  · rw [next_of_exhausted chars (by omega)] at hv
    exact absurd rfl hv

theorem next_stdout_of_exhausted (chars : HailChars) (h : chars.str.len ≤ chars.idx) :
    next_stdout (hail_chars_next chars) = [] := by
  rw [next_of_exhausted chars h]
  rfl

theorem next_stdout_encoded (s : HailStr) (cs : List Nat) (p : Nat)
    (hcs : ∀ c ∈ cs, 0 < c ∧ c < 0x200000)
    (hb : ∀ i, i < (encodeAll cs).length → load s.ptr (p + i) = (encodeAll cs).getD i 0)
    (hlen : p + (encodeAll cs).length = s.len) :
    next_stdout (hail_chars_next ⟨p, s⟩) = [] := by
  cases cs with
  | nil =>
    have hp : s.len ≤ p := by simp [encodeAll] at hlen; omega
    exact next_stdout_of_exhausted ⟨p, s⟩ hp
  | cons c rest =>
    obtain ⟨hc0, hc1⟩ := hcs c (by simp)
    obtain ⟨hb1, _⟩ := bytes_at_append s.ptr p (encoding c) (encodeAll rest) hb
    have hpos := (encoding_bytes c hc0 hc1).1
    have hlt : p < s.len := by
      simp only [encodeAll, List.length_append] at hlen
      omega
    obtain ⟨hv, _⟩ := next_on_encoding s p c hc0 hc1 hlt hb1
    exact next_stdout_of_value ⟨p, s⟩ (by rw [hv]; omega)

/-- On a string made of encodings, the loop of `println` sends the encodings of
the codepoints other than `%` and then the newline. -/
theorem println_loop_encoded (s : HailStr) (stale : Nat → BytePtr) :
    ∀ (cs : List Nat) (p calls : Nat) (out : List Nat) (fuel : Nat),
      (∀ c ∈ cs, 0 < c ∧ c < 0x200000) →
      (∀ i, i < (encodeAll cs).length → load s.ptr (p + i) = (encodeAll cs).getD i 0) →
      p + (encodeAll cs).length = s.len → cs.length < fuel →
      println_loop stale fuel (hail_chars_next ⟨p, s⟩).value (hail_chars_next ⟨p, s⟩).chars
          calls out
        = some { output := out ++ encodeAll (cs.filter (fun c => decide (c ≠ 0x25))) ++ [0x0A]
                 calls := calls + cs.length
                 chars := ⟨s.len, s⟩ } := by
  intro cs
  induction cs with
  | nil =>
    intro p calls out fuel _ _ hlen hf
    obtain ⟨f, rfl⟩ : ∃ f, fuel = f + 1 := ⟨fuel - 1, by omega⟩
    have hp : p = s.len := by simpa [encodeAll] using hlen
    subst hp
    rw [next_of_exhausted ⟨s.len, s⟩ (le_refl _)]
    simp [println_loop, encodeAll]
  | cons c rest ih =>
    intro p calls out fuel hcs hb hlen hf
    obtain ⟨f, rfl⟩ : ∃ f, fuel = f + 1 := ⟨fuel - 1, by omega⟩
    obtain ⟨hc0, hc1⟩ := hcs c (by simp)
    have hcs' : ∀ c' ∈ rest, 0 < c' ∧ c' < 0x200000 := fun c' hc' => hcs c' (by simp [hc'])
    obtain ⟨hb1, hb2⟩ := bytes_at_append s.ptr p (encoding c) (encodeAll rest) hb
    have hpos := (encoding_bytes c hc0 hc1).1
    have hlen' : p + (encoding c).length + (encodeAll rest).length = s.len := by
      simp only [encodeAll, List.length_append] at hlen
      omega
    obtain ⟨hv, hch⟩ := next_on_encoding s p c hc0 hc1 (by omega) hb1
    have hne : c ≠ 0 := by omega
    have hquiet := next_stdout_encoded s rest (p + (encoding c).length) hcs' hb2 hlen'
    rw [hv, hch]
    simp only [println_loop, hne, ne_eq, not_false_eq_true, if_true,
      write_char_of_lt c (stale calls) hc1, hquiet, List.append_nil]
    rw [ih (p + (encoding c).length) (calls + 1) _ f hcs' hb2 hlen' (by simpa using hf)]
    by_cases hp : c = 0x25
    · subst hp
      simp only [if_true, List.append_nil, List.length_cons]
      have : List.filter (fun c => decide (c ≠ 0x25)) (0x25 :: rest)
          = List.filter (fun c => decide (c ≠ 0x25)) rest := by
        simp [List.filter]
      rw [this]
      congr 2
      omega
    · have : List.filter (fun c => decide (c ≠ 0x25)) (c :: rest)
          = c :: List.filter (fun c => decide (c ≠ 0x25)) rest := by
        simp [List.filter, hp]
      rw [this]
      simp only [if_neg hp, encodeAll, List.append_assoc, List.length_cons]
      congr 2
      omega

theorem println_of_encoded (s : HailStr) (stale : Nat → BytePtr) (cs : List Nat)
    (pfuel : Nat) (hcs : ∀ c ∈ cs, 0 < c ∧ c < 0x200000)
    (hb : ∀ i, i < (encodeAll cs).length → load s.ptr i = (encodeAll cs).getD i 0)
    (hlen : s.len = (encodeAll cs).length) (hpf : cs.length < pfuel) :
    println s stale pfuel
      = some { output := encodeAll (cs.filter (fun c => decide (c ≠ 0x25))) ++ [0x0A]
               calls := cs.length + 1
               chars := ⟨s.len, s⟩ } := by
  have hb0 : ∀ i, i < (encodeAll cs).length →
      load s.ptr (0 + i) = (encodeAll cs).getD i 0 :=
    fun i hi => by rw [Nat.zero_add]; exact hb i hi
  have hquiet := next_stdout_encoded s cs 0 hcs hb0 (by omega)
  have hloop := println_loop_encoded s stale cs 0 1 [] pfuel hcs hb0 (by omega) hpf
  unfold println hail_str_chars
  rw [hquiet, hloop, List.nil_append, Nat.add_comm 1]

/-- What `println` sends for a string made of encodings: for codepoints
`c_1 .. c_n` with `0 < c_i < 0x200000` and `s` the string `hail_str_from` makes of
their encodings followed by a 0 byte, `println s` ends and has sent the encodings
of the `c_i` other than `%`, then the newline.  When no `c_i` is `%` this is the
`len` bytes of `s` followed by the newline. -/
theorem println_output_encoded (cs : List Nat) (hcs : ∀ c ∈ cs, 0 < c ∧ c < 0x200000)
    (stale : Nat → BytePtr) (fuel pfuel : Nat) (hf : (encodeAll cs).length < fuel)
    (hpf : cs.length < pfuel) :
    ∃ s r, hail_str_from (cstr (encodeAll cs ++ [0])) fuel = some s
      ∧ println s stale pfuel = some r
      ∧ r.output = encodeAll (cs.filter (fun c => decide (c ≠ 0x25))) ++ [0x0A]
      ∧ bytesOf s = encodeAll cs
      ∧ ((∀ c ∈ cs, c ≠ 0x25) → r.output = bytesOf s ++ [0x0A])
      ∧ r.calls = cs.length + 1 := by
  have hbs := encodeAll_bytes cs hcs
  obtain ⟨h1, _, _⟩ := load_cstr_terminated (encodeAll cs) hbs
  refine ⟨_, _, hail_str_from_cstr _ hbs fuel hf,
    println_of_encoded _ stale cs pfuel hcs h1 rfl hpf, rfl, bytesOf_cstr _ hbs, ?_, rfl⟩
  · intro hno
    have hfil : List.filter (fun c => decide (c ≠ 0x25)) cs = cs := by
      rw [List.filter_eq_self]
      intro c hc
      simpa using hno c hc
    rw [bytesOf_cstr _ hbs]
    show encodeAll (List.filter (fun c => decide (c ≠ 0x25)) cs) ++ [0x0A] = _
    rw [hfil]

/-- Claim C11, the code at the failing input `100%`.  `hail_str_from` of the
encodings of `1`, `0`, `0`, `%` followed by a 0 byte is the string `100%` of
length 4; `println` of it ends and sends `100` and the newline: the byte `%` of
the string is not printed, so the output is not the `len` bytes of the string
followed by the newline.  `write_char` hands the encoded buffer to `fprintf` as
its format, and the encoding of `%` is an incomplete conversion
specification. -/
theorem println_drops_percent :
    hail_str_from (cstr (encodeAll [0x31, 0x30, 0x30, 0x25] ++ [0])) 5 = some percentStr
      ∧ bytesOf percentStr = [0x31, 0x30, 0x30, 0x25]
      ∧ write_char 0x25 (cstr []) = some []
      ∧ (println percentStr (fun _ => cstr []) 5).map (fun r => r.output)
          = some [0x31, 0x30, 0x30, 0x0A]
      ∧ (println percentStr (fun _ => cstr []) 5).map (fun r => r.output)
          ≠ some (bytesOf percentStr ++ [0x0A]) := by
  refine ⟨rfl, by decide, by decide, by decide, by decide⟩

/-- On a string that starts with an invalid lead byte, `println` sends the
diagnostic of `hail_chars_next` and the newline: 45 bytes. -/
theorem println_invalid_lead :
    (println strayStr (fun _ => cstr []) 1).map (fun r => r.output)
        = some (invalid_byte_message ++ [0x0A])
      ∧ (invalid_byte_message ++ [0x0A]).length = 45 := by
  refine ⟨by decide, by decide⟩

/-! ## The range of the decoded value -/

set_option maxRecDepth 100000 in
theorem lead_bounds : ∀ b, b < 256 →
    b &&& not32 UTF8_ONE_BYTE_MASK < 2 ^ 7
      ∧ shl32 (b &&& not32 UTF8_TWO_BYTES_MASK) 6 < 2 ^ 11
      ∧ shl32 (b &&& not32 UTF8_THREE_BYTES_MASK) 12 < 2 ^ 16
      ∧ shl32 (b &&& not32 UTF8_FOUR_BYTES_MASK) 18 < 2 ^ 21 := by
  decide

set_option maxRecDepth 100000 in
theorem cont_bounds : ∀ b, b < 256 →
    b &&& not32 UTF8_CONTINUATION_MASK < 2 ^ 6
      ∧ shl32 (b &&& not32 UTF8_CONTINUATION_MASK) 6 < 2 ^ 12
      ∧ shl32 (b &&& not32 UTF8_CONTINUATION_MASK) 12 < 2 ^ 18 := by
  decide

theorem lt_pow_mono (x m n : Nat) (h : x < 2 ^ m) (hmn : m ≤ n) : x < 2 ^ n :=
  Nat.lt_of_lt_of_le h (Nat.pow_le_pow_right (by decide) hmn)

theorem next_value_bounds (chars : HailChars) (h : chars.idx < chars.str.len) :
    (utf8_codepoint_size (load chars.str.ptr chars.idx) = 1 →
        (hail_chars_next chars).value < 2 ^ 7)
      ∧ (utf8_codepoint_size (load chars.str.ptr chars.idx) = 2 →
        (hail_chars_next chars).value < 2 ^ 11)
      ∧ (utf8_codepoint_size (load chars.str.ptr chars.idx) = 3 →
        (hail_chars_next chars).value < 2 ^ 16)
      ∧ (utf8_codepoint_size (load chars.str.ptr chars.idx) = 4 →
        (hail_chars_next chars).value < 2 ^ 21) := by
  have l0 := lead_bounds _ (load_lt chars.str.ptr chars.idx)
  have c1 := cont_bounds _ (load_lt chars.str.ptr (chars.idx + 1))
  have c2 := cont_bounds _ (load_lt chars.str.ptr (chars.idx + 2))
  have c3 := cont_bounds _ (load_lt chars.str.ptr (chars.idx + 3))
  refine ⟨fun hs => ?_, fun hs => ?_, fun hs => ?_, fun hs => ?_⟩
  · rw [next_value_1 chars h hs]; exact l0.1
  · rw [next_value_2 chars h hs]
    exact Nat.or_lt_two_pow l0.2.1 (lt_pow_mono _ 6 11 c1.1 (by decide))
  · rw [next_value_3 chars h hs]
    exact Nat.or_lt_two_pow
      (Nat.or_lt_two_pow l0.2.2.1 (lt_pow_mono _ 12 16 c1.2.1 (by decide)))
      (lt_pow_mono _ 6 16 c2.1 (by decide))
  · rw [next_value_4 chars h hs]
    exact Nat.or_lt_two_pow
      (Nat.or_lt_two_pow
        (Nat.or_lt_two_pow l0.2.2.2 (lt_pow_mono _ 18 21 c1.2.2 (by decide)))
        (lt_pow_mono _ 12 21 c2.2.1 (by decide)))
      (lt_pow_mono _ 6 21 c3.1 (by decide))

theorem next_value_lt (chars : HailChars) : (hail_chars_next chars).value < 0x200000 := by
  by_cases h : chars.idx < chars.str.len
  · obtain ⟨b1, b2, b3, b4⟩ := next_value_bounds chars h
    rcases size_cases (load chars.str.ptr chars.idx) with h0 | h1 | h2 | h3 | h4
    · rw [next_of_invalid chars h h0]; exact (by decide : (0 : Nat) < 0x200000)
    · exact Nat.lt_of_lt_of_le (b1 h1) (by decide)
    · exact Nat.lt_of_lt_of_le (b2 h2) (by decide)
    · exact Nat.lt_of_lt_of_le (b3 h3) (by decide)
    · exact Nat.lt_of_lt_of_le (b4 h4) (by decide)
  · rw [next_of_exhausted chars (by omega)]; exact (by decide : (0 : Nat) < 0x200000)

/-- Claim C20 (decoder range).  Whatever the bytes and the position, the value
`hail_chars_next` returns is below `0x200000`, and below `0x80`, `0x800`,
`0x10000` when the sequence size is 1, 2, 3.  So for every value the iterator
yields `utf32_to_utf8_string` writes a terminated encoding: the C string in the
array of `write_char` after the encoder ends inside the array and is the
encoding of the value, whatever the array held at entry, never its stale
content. -/
theorem decoder_range (chars : HailChars) (buf : BytePtr) :
    (hail_chars_next chars).value < 0x200000
      ∧ (chars.idx < chars.str.len →
          (utf8_codepoint_size (load chars.str.ptr chars.idx) = 1 →
              (hail_chars_next chars).value < 0x80)
            ∧ (utf8_codepoint_size (load chars.str.ptr chars.idx) = 2 →
              (hail_chars_next chars).value < 0x800)
            ∧ (utf8_codepoint_size (load chars.str.ptr chars.idx) = 3 →
              (hail_chars_next chars).value < 0x10000))
      ∧ cstring (utf32_to_utf8_string (hail_chars_next chars).value buf) 5 0
          = some (encoding (hail_chars_next chars).value) := by
  refine ⟨next_value_lt chars, fun h => ?_,
    enc_cstring_eq_encoding _ buf (next_value_lt chars)⟩
  obtain ⟨b1, b2, b3, _⟩ := next_value_bounds chars h
  exact ⟨b1, b2, b3⟩

/-! ## Progress of the iterator and termination of `println` -/

theorem next_progress (chars : HailChars) :
    chars.idx ≤ (hail_chars_next chars).chars.idx
      ∧ ((hail_chars_next chars).value ≠ 0 →
          chars.idx < chars.str.len
            ∧ chars.idx + 1 ≤ (hail_chars_next chars).chars.idx
            ∧ (hail_chars_next chars).chars.idx ≤ chars.idx + 4) := by
  by_cases h : chars.idx < chars.str.len
  · by_cases hsz : utf8_codepoint_size (load chars.str.ptr chars.idx) = 0
    · rw [next_of_invalid chars h hsz]
      exact ⟨le_refl _, fun hv => absurd rfl hv⟩
    · have h4 := size_le_four (load chars.str.ptr chars.idx)
      rw [next_chars_of_valid chars h hsz]
      refine ⟨?_, fun _ => ⟨h, ?_, ?_⟩⟩
      · show chars.idx ≤ chars.idx + _; omega
      · show chars.idx + 1 ≤ chars.idx + _; omega
      · show chars.idx + _ ≤ chars.idx + 4; omega
  · rw [next_of_exhausted chars (by omega)]
    exact ⟨le_refl _, fun hv => absurd rfl hv⟩

theorem println_loop_terminates (stale : Nat → BytePtr) :
    ∀ (fuel : Nat) (chars : HailChars) (calls : Nat) (out : List Nat),
      chars.str.len - chars.idx + 1 ≤ fuel →
      ∃ r, println_loop stale fuel (hail_chars_next chars).value
              (hail_chars_next chars).chars calls out = some r
        ∧ r.calls ≤ calls + (chars.str.len - chars.idx) := by
  intro fuel
  induction fuel with
  | zero => intro chars calls out h; omega
  | succ f ih =>
    intro chars calls out hf
    by_cases hv : (hail_chars_next chars).value = 0
    · refine ⟨{ output := out ++ [0x0A], calls := calls,
                chars := (hail_chars_next chars).chars }, ?_, ?_⟩
      · simp only [println_loop, hv, ne_eq, not_true_eq_false, if_false]
      · show calls ≤ _
        omega
    · obtain ⟨_, hp⟩ := next_progress chars
      obtain ⟨hlt, hstep, _⟩ := hp hv
      have hstr := next_str chars
      obtain ⟨r, hr, hc⟩ := ih (hail_chars_next chars).chars (calls + 1)
        (out ++ (if (hail_chars_next chars).value = 0x25 then []
                  else encoding (hail_chars_next chars).value)
          ++ next_stdout (hail_chars_next (hail_chars_next chars).chars))
        (by rw [hstr]; omega)
      refine ⟨r, ?_, ?_⟩
      · simp only [println_loop, hv, ne_eq, not_false_eq_true, if_true,
          write_char_of_lt _ (stale calls) (next_value_lt chars)]
        exact hr
      · rw [hstr] at hc
        omega

/-- Claim C19 (progress and termination).  For every string and position, with
arbitrary bytes at every offset: a call of `hail_chars_next` never decreases
`idx`; a call that returns a non-zero value had `idx < len` before it and raises
`idx` by at least 1 and at most 4; and `println`, given fuel for `len + 1` tests
of its loop condition, ends after at most `len + 1` calls of
`hail_chars_next`. -/
theorem progress_and_termination (s : HailStr) (idx : Nat) (stale : Nat → BytePtr)
    (fuel : Nat) (hf : s.len + 1 ≤ fuel) :
    idx ≤ (hail_chars_next ⟨idx, s⟩).chars.idx
      ∧ ((hail_chars_next ⟨idx, s⟩).value ≠ 0 →
          idx < s.len
            ∧ idx + 1 ≤ (hail_chars_next ⟨idx, s⟩).chars.idx
            ∧ (hail_chars_next ⟨idx, s⟩).chars.idx ≤ idx + 4)
      ∧ ∃ r, println s stale fuel = some r ∧ r.calls ≤ s.len + 1 := by
  obtain ⟨p1, p2⟩ := next_progress ⟨idx, s⟩
  refine ⟨p1, p2, ?_⟩
  obtain ⟨r, hr, hc⟩ := println_loop_terminates stale fuel (hail_str_chars s) 1
    (next_stdout (hail_chars_next (hail_str_chars s)))
    (by show s.len - 0 + 1 ≤ fuel; omega)
  refine ⟨r, hr, ?_⟩
  have : r.calls ≤ 1 + (s.len - 0) := hc
  omega

/-! ## Reads on complete input -/

theorem next_reads_of_valid (chars : HailChars) (h : chars.idx < chars.str.len)
    (hsz : utf8_codepoint_size (load chars.str.ptr chars.idx) ≠ 0) :
    (∀ i ∈ (hail_chars_next chars).reads,
        i < chars.idx + utf8_codepoint_size (load chars.str.ptr chars.idx))
      ∧ (hail_chars_next chars).diag = false := by
  have hlt : ¬ (chars.idx ≥ chars.str.len) := by omega
  rcases size_cases (load chars.str.ptr chars.idx) with h0 | h1 | h2 | h3 | h4
  · exact absurd h0 hsz
  · simp only [hail_chars_next, hlt, if_false, h1, decodeAt]
    refine ⟨fun i hi => ?_, trivial⟩
    simp only [List.mem_cons, List.mem_singleton, List.not_mem_nil, or_false] at hi
    omega
  · simp only [hail_chars_next, hlt, if_false, h2, decodeAt]
    refine ⟨fun i hi => ?_, trivial⟩
    simp only [List.mem_cons, List.mem_singleton, List.not_mem_nil, or_false] at hi
    omega
  · simp only [hail_chars_next, hlt, if_false, h3, decodeAt]
    refine ⟨fun i hi => ?_, trivial⟩
    simp only [List.mem_cons, List.mem_singleton, List.not_mem_nil, or_false] at hi
    omega
  · simp only [hail_chars_next, hlt, if_false, h4, decodeAt]
    refine ⟨fun i hi => ?_, trivial⟩
    simp only [List.mem_cons, List.mem_singleton, List.not_mem_nil, or_false] at hi
    omega

/-- Claim C18 (safety on complete input).  If the bytes of `s` below `len` are
complete sequences laid end to end, then for every `k` the `(k+1)`-th call of
`hail_chars_next` on the iterator from `hail_str_chars s` reads only offsets
below `len`, does not take the `default` branch (no diagnostic), and leaves
`idx <= len`; `idx <= len` also holds before it. -/
theorem safe_on_complete (s : HailStr) (hc : completeFrom s.ptr s.len s.len 0 = true)
    (k : Nat) :
    (∀ i ∈ (hail_chars_next (nextN k (hail_str_chars s))).reads, i < s.len)
      ∧ (hail_chars_next (nextN k (hail_str_chars s))).diag = false
      ∧ (hail_chars_next (nextN k (hail_str_chars s))).chars.idx ≤ s.len
      ∧ (nextN k (hail_str_chars s)).idx ≤ s.len := by
  obtain ⟨p, fuel, hk, hp, hcp, hf⟩ := nextN_complete s hc k
  rw [hk]
  by_cases hlt : p < s.len
  · obtain ⟨hsz, hle, _⟩ := complete_step s.ptr s.len fuel p hcp hf hlt
    obtain ⟨hr, hd⟩ := next_reads_of_valid ⟨p, s⟩ hlt hsz
    refine ⟨fun i hi => ?_, hd, ?_, hp⟩
    · have := hr i hi
      show i < s.len
      exact Nat.lt_of_lt_of_le this hle
    · rw [next_chars_of_valid ⟨p, s⟩ hlt hsz]
      exact hle
  · rw [next_of_exhausted ⟨p, s⟩ (show s.len ≤ p by omega)]
    exact ⟨fun i hi => absurd hi (by simp), rfl, hp, hp⟩

/-! ## The shape of the encoder's output -/

set_option maxRecDepth 100000 in
theorem cont_marker : ∀ y, y < 64 → (0x80 ||| y) &&& 0xC0 = 0x80 := by
  decide

/-- Claim C16 (encoder output is structurally well-formed).  For
`code < 0x200000` with `n` payload bytes written (`payloadLen code`, followed by
the terminator at offset `n`): `utf8_codepoint_size` of the first byte is `n`,
every byte at an offset `i` with `1 <= i < n` satisfies `(b & 0xC0) == 0x80`,
and if `code > 0` none of the `n` payload bytes is 0, so `strlen` of the output
is `n`. -/
theorem encoder_well_formed (code : Nat) (string : BytePtr) (h : code < 0x200000) :
    utf8_codepoint_size (load (utf32_to_utf8_string code string) 0) = payloadLen code
      ∧ (∀ i, 1 ≤ i → i < payloadLen code →
          load (utf32_to_utf8_string code string) i &&& 0xC0 = 0x80)
      ∧ load (utf32_to_utf8_string code string) (payloadLen code) = 0
      ∧ (0 < code →
          (∀ i, i < payloadLen code → load (utf32_to_utf8_string code string) i ≠ 0)
            ∧ ∀ fuel, payloadLen code < fuel →
                strlen (utf32_to_utf8_string code string) fuel = some (payloadLen code)) := by
  have fin : ∀ n, load (utf32_to_utf8_string code string) n = 0 →
      (0 < code → ∀ i, i < n → load (utf32_to_utf8_string code string) i ≠ 0) →
      (0 < code →
        (∀ i, i < n → load (utf32_to_utf8_string code string) i ≠ 0)
          ∧ ∀ fuel, n < fuel → strlen (utf32_to_utf8_string code string) fuel = some n) :=
    fun n hz hnz hpos =>
      ⟨hnz hpos, fun fuel hfuel => strlen_first_zero _ n fuel hfuel hz (hnz hpos)⟩
  by_cases a : code < 0x80
  · obtain ⟨l0, l1, _⟩ := enc_spec_1 code string a
    have hn : payloadLen code = 1 := by simp only [payloadLen, a, if_true]
    rw [hn]
    refine ⟨by rw [l0]; exact (ascii_byte code a).1, fun i h1 h2 => by omega, l1,
      fin 1 l1 (fun hpos i hi => ?_)⟩
    obtain rfl : i = 0 := by omega
    rw [l0]; omega
  by_cases b : code < 0x800
  · obtain ⟨l0, l1, l2, _⟩ := enc_spec_2 code string (by omega) b
    have hx := enc_lead2 _ (shr_lt code 6 32 (by norm_num; omega))
    have hy := enc_cont _ (and_3f_lt code)
    have hn : payloadLen code = 2 := by simp only [payloadLen, a, b, if_true, if_false]
    rw [hn]
    refine ⟨by rw [l0]; exact hx.2.2.1, fun i h1 h2 => ?_, l2,
      fin 2 l2 (fun _ i hi => ?_)⟩
    · obtain rfl : i = 1 := by omega
      rw [l1]; exact cont_marker _ (and_3f_lt code)
    · have hi' : i = 0 ∨ i = 1 := by omega
      rcases hi' with rfl | rfl
      · rw [l0]; exact hx.2.1
      · rw [l1]; exact hy.2.1
  by_cases d : code < 0x10000
  · obtain ⟨l0, l1, l2, l3, _⟩ := enc_spec_3 code string (by omega) d
    have hx := enc_lead3 _ (shr_lt code 12 16 (by norm_num; omega))
    have hy := enc_cont _ (and_3f_lt (code >>> 6))
    have hz := enc_cont _ (and_3f_lt code)
    have hn : payloadLen code = 3 := by simp only [payloadLen, a, b, d, if_true, if_false]
    rw [hn]
    refine ⟨by rw [l0]; exact hx.2.2.1, fun i h1 h2 => ?_, l3,
      fin 3 l3 (fun _ i hi => ?_)⟩
    · have hi' : i = 1 ∨ i = 2 := by omega
      rcases hi' with rfl | rfl
      · rw [l1]; exact cont_marker _ (and_3f_lt (code >>> 6))
      · rw [l2]; exact cont_marker _ (and_3f_lt code)
    · have hi' : i = 0 ∨ i = 1 ∨ i = 2 := by omega
      rcases hi' with rfl | rfl | rfl
      · rw [l0]; exact hx.2.1
      · rw [l1]; exact hy.2.1
      · rw [l2]; exact hz.2.1
  · obtain ⟨l0, l1, l2, l3, l4, _⟩ := enc_spec_4 code string (by omega) h
    have hw := enc_lead4 _ (shr_lt code 18 8 (by norm_num; omega))
    have hx := enc_cont _ (and_3f_lt (code >>> 12))
    have hy := enc_cont _ (and_3f_lt (code >>> 6))
    have hz := enc_cont _ (and_3f_lt code)
    have hn : payloadLen code = 4 := by simp only [payloadLen, a, b, d, if_false]
    rw [hn]
    refine ⟨by rw [l0]; exact hw.2.2.1, fun i h1 h2 => ?_, l4,
      fin 4 l4 (fun _ i hi => ?_)⟩
    · have hi' : i = 1 ∨ i = 2 ∨ i = 3 := by omega
      rcases hi' with rfl | rfl | rfl
      · rw [l1]; exact cont_marker _ (and_3f_lt (code >>> 12))
      · rw [l2]; exact cont_marker _ (and_3f_lt (code >>> 6))
      · rw [l3]; exact cont_marker _ (and_3f_lt code)
    · have hi' : i = 0 ∨ i = 1 ∨ i = 2 ∨ i = 3 := by omega
      rcases hi' with rfl | rfl | rfl | rfl
      · rw [l0]; exact hw.2.1
      · rw [l1]; exact hx.2.1
      · rw [l2]; exact hy.2.1
      · rw [l3]; exact hz.2.1

/-! ## When the returned value is 0 -/

theorem or_eq_zero (x y : Nat) : x ||| y = 0 ↔ x = 0 ∧ y = 0 := by
  constructor
  · intro h
    have hb : ∀ i, x.testBit i = false ∧ y.testBit i = false := by
      intro i
      have := congrArg (fun n => n.testBit i) h
      simpa [Nat.testBit_or] using this
    exact ⟨Nat.eq_of_testBit_eq (fun i => by simp [(hb i).1]),
      Nat.eq_of_testBit_eq (fun i => by simp [(hb i).2])⟩
  · rintro ⟨rfl, rfl⟩
    rfl

set_option maxRecDepth 100000 in
theorem lead_zero : ∀ b, b < 256 →
    (b &&& not32 UTF8_ONE_BYTE_MASK = 0 ↔ b &&& 0x7F = 0)
      ∧ (shl32 (b &&& not32 UTF8_TWO_BYTES_MASK) 6 = 0 ↔ b &&& 0x1F = 0)
      ∧ (shl32 (b &&& not32 UTF8_THREE_BYTES_MASK) 12 = 0 ↔ b &&& 0x0F = 0)
      ∧ (shl32 (b &&& not32 UTF8_FOUR_BYTES_MASK) 18 = 0 ↔ b &&& 0x07 = 0) := by
  decide

set_option maxRecDepth 100000 in
theorem cont_zero : ∀ b, b < 256 →
    (b &&& not32 UTF8_CONTINUATION_MASK = 0 ↔ b &&& 0x3F = 0)
      ∧ (shl32 (b &&& not32 UTF8_CONTINUATION_MASK) 6 = 0 ↔ b &&& 0x3F = 0)
      ∧ (shl32 (b &&& not32 UTF8_CONTINUATION_MASK) 12 = 0 ↔ b &&& 0x3F = 0) := by
  decide

theorem next_zero_iff (chars : HailChars) (h : chars.idx < chars.str.len) :
    (utf8_codepoint_size (load chars.str.ptr chars.idx) = 1 →
        ((hail_chars_next chars).value = 0 ↔ load chars.str.ptr chars.idx &&& 0x7F = 0))
      ∧ (utf8_codepoint_size (load chars.str.ptr chars.idx) = 2 →
        ((hail_chars_next chars).value = 0 ↔
          (load chars.str.ptr chars.idx &&& 0x1F = 0
            ∧ load chars.str.ptr (chars.idx + 1) &&& 0x3F = 0)))
      ∧ (utf8_codepoint_size (load chars.str.ptr chars.idx) = 3 →
        ((hail_chars_next chars).value = 0 ↔
          (load chars.str.ptr chars.idx &&& 0x0F = 0
            ∧ load chars.str.ptr (chars.idx + 1) &&& 0x3F = 0
            ∧ load chars.str.ptr (chars.idx + 2) &&& 0x3F = 0)))
      ∧ (utf8_codepoint_size (load chars.str.ptr chars.idx) = 4 →
        ((hail_chars_next chars).value = 0 ↔
          (load chars.str.ptr chars.idx &&& 0x07 = 0
            ∧ load chars.str.ptr (chars.idx + 1) &&& 0x3F = 0
            ∧ load chars.str.ptr (chars.idx + 2) &&& 0x3F = 0
            ∧ load chars.str.ptr (chars.idx + 3) &&& 0x3F = 0))) := by
  have l0 := lead_zero _ (load_lt chars.str.ptr chars.idx)
  have c1 := cont_zero _ (load_lt chars.str.ptr (chars.idx + 1))
  have c2 := cont_zero _ (load_lt chars.str.ptr (chars.idx + 2))
  have c3 := cont_zero _ (load_lt chars.str.ptr (chars.idx + 3))
  refine ⟨fun hs => ?_, fun hs => ?_, fun hs => ?_, fun hs => ?_⟩
  · rw [next_value_1 chars h hs]; exact l0.1
  · rw [next_value_2 chars h hs, or_eq_zero, l0.2.1, c1.1]
  · rw [next_value_3 chars h hs, or_eq_zero, or_eq_zero, l0.2.2.1, c1.2.1, c2.1, and_assoc]
  · rw [next_value_4 chars h hs, or_eq_zero, or_eq_zero, or_eq_zero, l0.2.2.2, c1.2.2,
      c2.2.1, c3.1, and_assoc, and_assoc]

/-- Claim C15 (sentinel ambiguity, characterised).  `hail_chars_next` returns 0
if and only if (a) `idx >= len`, or (b) `idx < len` and the lead byte is invalid
(`utf8_codepoint_size` is 0), or (c) `idx < len`, the lead byte is valid and every
extracted payload bit is zero: the value bits of the lead byte (its low 7, 5, 4 or
3 bits for size 1, 2, 3 or 4) and the low 6 bits of each following byte of the
sequence.  The iterator is left unchanged in cases (a) and (b); with a valid lead
byte, so in case (c), `idx` advances by the sequence length. -/
theorem sentinel_characterised (chars : HailChars) :
    ((hail_chars_next chars).value = 0 ↔
        (chars.idx ≥ chars.str.len
          ∨ (chars.idx < chars.str.len
              ∧ utf8_codepoint_size (load chars.str.ptr chars.idx) = 0)
          ∨ (chars.idx < chars.str.len
              ∧ utf8_codepoint_size (load chars.str.ptr chars.idx) = 1
              ∧ load chars.str.ptr chars.idx &&& 0x7F = 0)
          ∨ (chars.idx < chars.str.len
              ∧ utf8_codepoint_size (load chars.str.ptr chars.idx) = 2
              ∧ load chars.str.ptr chars.idx &&& 0x1F = 0
              ∧ load chars.str.ptr (chars.idx + 1) &&& 0x3F = 0)
          ∨ (chars.idx < chars.str.len
              ∧ utf8_codepoint_size (load chars.str.ptr chars.idx) = 3
              ∧ load chars.str.ptr chars.idx &&& 0x0F = 0
              ∧ load chars.str.ptr (chars.idx + 1) &&& 0x3F = 0
              ∧ load chars.str.ptr (chars.idx + 2) &&& 0x3F = 0)
          ∨ (chars.idx < chars.str.len
              ∧ utf8_codepoint_size (load chars.str.ptr chars.idx) = 4
              ∧ load chars.str.ptr chars.idx &&& 0x07 = 0
              ∧ load chars.str.ptr (chars.idx + 1) &&& 0x3F = 0
              ∧ load chars.str.ptr (chars.idx + 2) &&& 0x3F = 0
              ∧ load chars.str.ptr (chars.idx + 3) &&& 0x3F = 0)))
      ∧ (chars.idx ≥ chars.str.len → (hail_chars_next chars).chars = chars)
      ∧ (chars.idx < chars.str.len →
          utf8_codepoint_size (load chars.str.ptr chars.idx) = 0 →
            (hail_chars_next chars).chars = chars)
      ∧ (chars.idx < chars.str.len →
          utf8_codepoint_size (load chars.str.ptr chars.idx) ≠ 0 →
            (hail_chars_next chars).chars.idx
              = chars.idx + utf8_codepoint_size (load chars.str.ptr chars.idx)) := by
  refine ⟨?_, fun h => by rw [next_of_exhausted chars h],
    fun h hsz => by rw [next_of_invalid chars h hsz],
    fun h hsz => by rw [next_chars_of_valid chars h hsz]⟩
  by_cases h : chars.idx < chars.str.len
  · obtain ⟨z1, z2, z3, z4⟩ := next_zero_iff chars h
    rcases size_cases (load chars.str.ptr chars.idx) with h0 | h1 | h2 | h3 | h4
    · constructor
      · intro _; exact Or.inr (Or.inl ⟨h, h0⟩)
      · intro _; rw [next_of_invalid chars h h0]
    · constructor
      · intro hv; exact Or.inr (Or.inr (Or.inl ⟨h, h1, (z1 h1).mp hv⟩))
      · rintro (g | ⟨_, g⟩ | ⟨_, _, g⟩ | ⟨_, g, _⟩ | ⟨_, g, _⟩ | ⟨_, g, _⟩)
        · omega
        · omega
        · exact (z1 h1).mpr g
        · omega
        · omega
        · omega
    · constructor
      · intro hv; exact Or.inr (Or.inr (Or.inr (Or.inl ⟨h, h2, (z2 h2).mp hv⟩)))
      · rintro (g | ⟨_, g⟩ | ⟨_, g, _⟩ | ⟨_, _, g⟩ | ⟨_, g, _⟩ | ⟨_, g, _⟩)
        · omega
        · omega
        · omega
        · exact (z2 h2).mpr g
        · omega
        · omega
    · constructor
      · intro hv
        exact Or.inr (Or.inr (Or.inr (Or.inr (Or.inl ⟨h, h3, (z3 h3).mp hv⟩))))
      · rintro (g | ⟨_, g⟩ | ⟨_, g, _⟩ | ⟨_, g, _⟩ | ⟨_, _, g⟩ | ⟨_, g, _⟩)
        · omega
        · omega
        · omega
        · omega
        · exact (z3 h3).mpr g
        · omega
    · constructor
      · intro hv
        exact Or.inr (Or.inr (Or.inr (Or.inr (Or.inr ⟨h, h4, (z4 h4).mp hv⟩))))
      · rintro (g | ⟨_, g⟩ | ⟨_, g, _⟩ | ⟨_, g, _⟩ | ⟨_, g, _⟩ | ⟨_, _, g⟩)
        · omega
        · omega
        · omega
        · omega
        · omega
        · exact (z4 h4).mpr g
  · constructor
    · intro _; exact Or.inl (by omega)
    · intro _; rw [next_of_exhausted chars (by omega)]

/-! ## The later theorems at concrete inputs -/

theorem println_output_encoded_at_mixed :
    hail_str_from (cstr (encodeAll [0x48, 0xE9, 0x20AC, 0x1F60A] ++ [0])) 11 = some mixedStr
      ∧ (println mixedStr (fun _ => cstr [1, 2, 3, 4, 5]) 5).map (fun r => r.output)
          = some [0x48, 0xC3, 0xA9, 0xE2, 0x82, 0xAC, 0xF0, 0x9F, 0x98, 0x8A, 0x0A] := by
  obtain ⟨s, r, hs, hr, _, hb, ho, _⟩ :=
    println_output_encoded [0x48, 0xE9, 0x20AC, 0x1F60A] (by decide)
      (fun _ => cstr [1, 2, 3, 4, 5]) 11 5 (by decide) (by decide)
  have hs' : hail_str_from (cstr (encodeAll [0x48, 0xE9, 0x20AC, 0x1F60A] ++ [0])) 11
      = some mixedStr := rfl
  obtain rfl : s = mixedStr := Option.some.inj (hs.symm.trans hs')
  refine ⟨hs', ?_⟩
  rw [hr, Option.map_some', ho (by decide), hb]
  rfl

theorem hail_str_free_spec_witness :
    hail_str_free sliceStr = []
      ∧ hail_str_free hiStr = [hiStr.ptr]
      ∧ (hail_str_free hiStr).length = 1 :=
  ⟨(hail_str_free_spec sliceStr).1 rfl, (hail_str_free_spec hiStr).2.1 rfl,
    ((hail_str_free_spec hiStr).2.2 (cstr [0x48, 0x69, 0]) 3 rfl).2⟩

theorem lead_byte_classification_witness :
    utf8_codepoint_size 0xE2 = 3
      ∧ (hail_chars_next ⟨0, euroStr⟩).chars.idx = 3 :=
  have h := lead_byte_classification 0xE2 (by decide)
  ⟨h.1.2.2.1.mpr (by decide),
    (h.2.2.2 ⟨0, euroStr⟩ (by decide) (by decide) (by decide)).1.trans (by decide)⟩

theorem continuation_not_validated_witness :
    (hail_chars_next ⟨0, eAcuteStr⟩).value = 0xE9
      ∧ (hail_chars_next ⟨0, eAcuteBadStr⟩).value = 0xE9
      ∧ (hail_chars_next ⟨0, eAcuteBadStr⟩).chars.idx = 2 := by
  have h := continuation_not_validated eAcuteStr eAcuteBadStr 0 rfl (by decide)
    (fun i h1 h2 => by
      have h2' : i < 2 := h2
      obtain rfl : i = 1 := by omega
      decide)
  exact ⟨by decide, h.1.symm.trans (by decide), h.2.symm.trans (by decide)⟩

theorem sentinel_characterised_witness :
    hail_str_from (cstr [0xC0, 0x80, 0x41, 0]) 4 = some overlongStr
      ∧ (hail_chars_next (hail_str_chars overlongStr)).value = 0
      ∧ (hail_chars_next (hail_str_chars overlongStr)).chars.idx = 2
      ∧ overlongStr.len = 3
      ∧ (println overlongStr (fun _ => cstr []) 1).map (fun r => r.output) = some [0x0A] :=
  have h := sentinel_characterised (hail_str_chars overlongStr)
  ⟨rfl,
    h.1.mpr (Or.inr (Or.inr (Or.inr (Or.inl
      ⟨by decide, by decide, by decide, by decide⟩)))),
    (h.2.2.2 (by decide) (by decide)).trans (by decide),
    rfl,
    by decide⟩

theorem encoder_well_formed_witness :
    utf8_codepoint_size (load (utf32_to_utf8_string 0x20AC (cstr [])) 0) = 3
      ∧ load (utf32_to_utf8_string 0x20AC (cstr [])) 1 &&& 0xC0 = 0x80
      ∧ load (utf32_to_utf8_string 0x20AC (cstr [])) 2 &&& 0xC0 = 0x80
      ∧ load (utf32_to_utf8_string 0x20AC (cstr [])) 3 = 0
      ∧ strlen (utf32_to_utf8_string 0x20AC (cstr [])) 5 = some 3 :=
  have h := encoder_well_formed 0x20AC (cstr []) (by decide)
  ⟨h.1.trans (by decide), h.2.1 1 (by decide) (by decide), h.2.1 2 (by decide) (by decide),
    h.2.2.1, ((h.2.2.2 (by decide)).2 5 (by decide)).trans (by decide)⟩

theorem sequence_decoded_witness :
    hail_str_from (cstr (encodeAll [0x48, 0xE9, 0x20AC, 0x1F60A] ++ [0])) 11 = some mixedStr
      ∧ (hail_chars_next (nextN 2 (hail_str_chars mixedStr))).value = 0x20AC
      ∧ (nextN 3 (hail_str_chars mixedStr)).idx = 6
      ∧ (hail_chars_next (nextN 4 (hail_str_chars mixedStr))).value = 0
      ∧ (nextN 5 (hail_str_chars mixedStr)).idx = 10 := by
  obtain ⟨s, hs, _, hk, hz, hi⟩ :=
    sequence_decoded [0x48, 0xE9, 0x20AC, 0x1F60A] (by decide) 11 (by decide)
  have hs' : hail_str_from (cstr (encodeAll [0x48, 0xE9, 0x20AC, 0x1F60A] ++ [0])) 11
      = some mixedStr := rfl
  obtain rfl : s = mixedStr := Option.some.inj (hs.symm.trans hs')
  have h2 := hk 2 (by decide)
  exact ⟨hs', h2.1.trans (by decide), h2.2.trans (by decide), hz, hi⟩

theorem safe_on_complete_witness :
    completeFrom mixedStr.ptr mixedStr.len mixedStr.len 0 = true
      ∧ 9 ∈ (hail_chars_next (nextN 3 (hail_str_chars mixedStr))).reads
      ∧ 9 < mixedStr.len
      ∧ (hail_chars_next (nextN 3 (hail_str_chars mixedStr))).diag = false
      ∧ (hail_chars_next (nextN 3 (hail_str_chars mixedStr))).chars.idx ≤ mixedStr.len :=
  have h := safe_on_complete mixedStr (by decide) 3
  ⟨by decide, by decide, h.1 9 (by decide), h.2.1, h.2.2.1⟩

theorem progress_and_termination_witness :
    (hail_chars_next ⟨0, truncatedStr⟩).value = 0x2000
      ∧ 0 + 1 ≤ (hail_chars_next ⟨0, truncatedStr⟩).chars.idx
      ∧ (hail_chars_next ⟨0, truncatedStr⟩).chars.idx ≤ 0 + 4
      ∧ (println truncatedStr (fun _ => cstr []) 2).isSome = true := by
  have h := progress_and_termination truncatedStr 0 (fun _ => cstr []) 2 (by decide)
  obtain ⟨r, hr, _⟩ := h.2.2
  have hp := h.2.1 (by decide)
  exact ⟨by decide, hp.2.1, hp.2.2, by rw [hr]; rfl⟩

theorem decoder_range_witness :
    (hail_chars_next ⟨0, euroStr⟩).value < 0x10000
      ∧ cstring (utf32_to_utf8_string (hail_chars_next ⟨0, smileStr⟩).value
            (cstr [1, 2, 3, 4, 5])) 5 0
          = some [0xF0, 0x9F, 0x98, 0x8A] :=
  ⟨((decoder_range ⟨0, euroStr⟩ (cstr [])).2.1 (by decide)).2.2 (by decide),
    (decoder_range ⟨0, smileStr⟩ (cstr [1, 2, 3, 4, 5])).2.2.trans (by decide)⟩

end Hail
